import Mathlib

/-!
Verification of the rustTLD FQDN-extraction library.

Rust strings (`&str` / `String`) are modelled as `List Char`; Rust's
`str::len` (UTF-8 byte count) is modelled by `utf8Len`.  Each definition
below is a direct translation of the corresponding item in `src/`.
-/

deriving instance DecidableEq for Except

namespace RustTld

/-- Rust string model: a list of characters. -/
abbrev Str := List Char

/-- UTF-8 byte length of a string, mirroring Rust `str::len`. -/
def utf8Len (s : Str) : Nat := (s.map Char.utf8Size).sum

/-- Number of occurrences of a dot, mirroring `s.matches('.').count()`. -/
def countDots (s : Str) : Nat := s.count '.'

/-- Split on a separator character, mirroring Rust `str::split(c)`:
the empty string yields one empty piece, adjacent separators yield
empty pieces. -/
def splitChar (c : Char) : Str → List Str
  | [] => [[]]
  | d :: rest =>
    if d = c then [] :: splitChar c rest
    else
      match splitChar c rest with
      | g :: gs => (d :: g) :: gs
      | [] => [[d]]

/-- Split a domain on dots, mirroring `domain.split('.')`. -/
def splitDot (s : Str) : List Str := splitChar '.' s

/-- Join label groups with dots, mirroring `groups.join(".")`. -/
def joinDots (gs : List Str) : Str := List.intercalate ['.'] gs

/-- Whitespace recognised by the model of Rust `str::trim`
(the ASCII whitespace actually occurring in suffix-list data). -/
def isWhite (c : Char) : Bool := c = ' ' || c = '\t' || c = '\n' || c = '\r'

/-- Model of Rust `str::trim`: strip whitespace from both ends. -/
def trim (s : Str) : Str :=
  ((s.dropWhile isWhite).reverse.dropWhile isWhite).reverse

/-- Substring test, mirroring Rust `str::contains(pat)`. -/
def containsStr (s pat : Str) : Bool :=
  if pat.isPrefixOf s then true
  else
    match s with
    | [] => false
    | _ :: rest => containsStr rest pat

/-- Fuelled scan for `replaceAll`; the fuel only bounds the recursion
depth (one unit per character consumed) and never runs out when it starts
at the length of the string. -/
def replaceAllF (pat : Str) : Nat → Str → Str
  | _, [] => []
  | 0, s => s
  | f + 1, c :: rest =>
    if pat.isPrefixOf (c :: rest) then
      replaceAllF pat f (rest.drop (pat.length - 1))
    else
      c :: replaceAllF pat f rest

/-- Replace every non-overlapping occurrence of `pat` by the empty string,
mirroring Rust `s.replace(pat, "")` (left-to-right scan).  `pat` is assumed
nonempty (all call sites pass nonempty patterns). -/
def replaceAll (s pat : Str) : Str :=
  if pat = [] then s else replaceAllF pat s.length s

/-- Decimal rendering of a natural number, mirroring Rust `format` of an
integer. -/
def natToStr (n : Nat) : Str := Nat.toDigits 10 n

/-- Three-way comparison of naturals. -/
def ncmp (a b : Nat) : Ordering :=
  if a < b then .lt else if a = b then .eq else .gt

/-- Lexicographic comparison of strings by code point, mirroring Rust's
`Ord` on `str` (UTF-8 byte order coincides with code-point order). -/
def scmp : Str → Str → Ordering
  | [], [] => .eq
  | [], _ :: _ => .lt
  | _ :: _, [] => .gt
  | a :: as, b :: bs =>
    match ncmp a.toNat b.toNat with
    | .eq => scmp as bs
    | o => o

/-- Boolean less-or-equal on strings, used as the sorting relation. -/
def leB (a b : Str) : Bool := scmp a b ≠ .gt

/-- Errors of the library, from `src/errors.rs` (`TldError`). -/
inductive TldError
  | invalidUrl
  | invalidTld
  | publicSuffixDownload (msg : Str)
  | publicSuffixParse (msg : Str)
  | publicSuffixFormat (msg : Str)
deriving DecidableEq

/-! ### `src/etld.rs` — the bucket of suffixes sharing one dot count.
The `RwLock<Vec<String>>` is modelled as a plain `List Str`
(the claims are about sequential behaviour). -/

/-- `Etld::add` from `src/etld.rs`: append unless already present;
returns the new list and whether the item was added. -/
def Etld.add (list : List Str) (s : Str) : List Str × Bool :=
  if list.contains s then (list, false) else (list ++ [s], true)

/-- `Etld::sort` from `src/etld.rs`: ascending lexicographic sort. -/
def Etld.sort (list : List Str) : List Str := list.mergeSort leB

/-- Total list indexing with the empty string as default. -/
def nth (l : List Str) (i : Nat) : Str := l.getD i []

/-- Core of Rust slice `binary_search` (`src/etld.rs` uses it through
`list.binary_search`): probe `lo + (hi - lo) / 2`, narrowing to the half
that may contain the target, returning an index on an equal probe.  The
fuel argument only bounds the recursion depth (the width `hi - lo` at
least halves each step, so fuel `hi - lo` is always enough). -/
def binSearchAux (l : List Str) (t : Str) : Nat → Nat → Nat → Option Nat
  | 0, _, _ => none
  | f + 1, lo, hi =>
    if lo < hi then
      let mid := lo + (hi - lo) / 2
      match scmp (nth l mid) t with
      | .lt => binSearchAux l t f (mid + 1) hi
      | .gt => binSearchAux l t f lo mid
      | .eq => some mid
    else none

/-- Rust slice `binary_search` over the whole list. -/
def binSearch (l : List Str) (t : Str) : Option Nat :=
  binSearchAux l t l.length 0 l.length

/-- `Etld::search` from `src/etld.rs`: empty list short-circuits to
not-found, otherwise binary search; on success return the stored element
and `true`, else the empty string and `false`. -/
def Etld.search (list : List Str) (t : Str) : Str × Bool :=
  if list.isEmpty then ([], false)
  else
    match binSearch list t with
    | some i => (nth list i, true)
    | none => ([], false)

/-! ### `src/fqdn.rs` — the store of five buckets plus cached total. -/

/-- `Fqdn` from `src/fqdn.rs`: five suffix buckets indexed by dot count
(`etld_list`) and the cached total count. -/
structure Store where
  b0 : List Str
  b1 : List Str
  b2 : List Str
  b3 : List Str
  b4 : List Str
  total : Nat
deriving DecidableEq

/-- Bucket lookup `etld_list[i]`. -/
def Store.bucket (st : Store) : Nat → List Str
  | 0 => st.b0
  | 1 => st.b1
  | 2 => st.b2
  | 3 => st.b3
  | 4 => st.b4
  | _ => []

/-- `etld_list[dots].add(tld, false)` for `dots < 5`. -/
def Store.addTld (st : Store) (tld : Str) (dots : Nat) : Store × Bool :=
  match dots with
  | 0 => let (l, a) := Etld.add st.b0 tld; ({ st with b0 := l }, a)
  | 1 => let (l, a) := Etld.add st.b1 tld; ({ st with b1 := l }, a)
  | 2 => let (l, a) := Etld.add st.b2 tld; ({ st with b2 := l }, a)
  | 3 => let (l, a) := Etld.add st.b3 tld; ({ st with b3 := l }, a)
  | 4 => let (l, a) := Etld.add st.b4 tld; ({ st with b4 := l }, a)
  | _ => (st, false)

/-- `etld.clear()` applied to every bucket (`parse_public_suffix_data`,
lines 619-622 of `src/fqdn.rs`); the cached `total` is not touched. -/
def Store.clearBuckets (st : Store) : Store :=
  { st with b0 := [], b1 := [], b2 := [], b3 := [], b4 := [] }

/-- `Fqdn::tidy` from `src/fqdn.rs`: sort every bucket and recompute the
cached total as the sum of the bucket counts. -/
def Store.tidy (st : Store) : Store :=
  let s0 := Etld.sort st.b0
  let s1 := Etld.sort st.b1
  let s2 := Etld.sort st.b2
  let s3 := Etld.sort st.b3
  let s4 := Etld.sort st.b4
  { b0 := s0, b1 := s1, b2 := s2, b3 := s3, b4 := s4,
    total := s0.length + s1.length + s2.length + s3.length + s4.length }

/-- A store with empty buckets and zero total, as built by `Fqdn::new`
before any load. -/
def emptyStore : Store := ⟨[], [], [], [], [], 0⟩

/-- `ETLD_GROUP_MAX` from `src/constants.rs`. -/
def ETLD_GROUP_MAX : Nat := 5

/-- `MIN_DATA_SIZE` from `src/constants.rs`. -/
def MIN_DATA_SIZE : Nat := 32768

/-! ### `Fqdn::guess`, `Fqdn::find_tld` (`src/fqdn.rs`). -/

/-- `Fqdn::guess` from `src/fqdn.rs`: extract the last `count`
dot-separated groups of `domain`. -/
def guess (domain : Str) (count : Nat) : Except TldError Str :=
  if domain = [] then .error .invalidUrl
  else
    let dots := countDots domain
    if dots < 1 ∨ utf8Len domain < 3 then .error .invalidUrl
    else
      let groups := splitDot domain
      let grpCnt := groups.length
      if grpCnt ≥ count then
        match count with
        | 5 => .ok (joinDots (groups.drop (grpCnt - 5)))
        | 4 => .ok (joinDots (groups.drop (grpCnt - 4)))
        | 3 => .ok (joinDots (groups.drop (grpCnt - 3)))
        | 2 => .ok (joinDots (groups.drop (grpCnt - 2)))
        | 1 => .ok (groups.getD (grpCnt - 1) [])
        | _ => .error .invalidUrl
      else .error .invalidUrl

/-- The loop of `Fqdn::find_tld`: for `i` from `dots` down to `1`, if
`guess` succeeds and `i ≤ ETLD_GROUP_MAX`, search bucket `i - 1`;
return the first hit. -/
def findTldLoop (st : Store) (s : Str) : Nat → Str
  | 0 => []
  | i + 1 =>
    match guess s (i + 1) with
    | .ok g =>
      if i + 1 ≤ ETLD_GROUP_MAX then
        match Etld.search (st.bucket i) g with
        | (tld, true) => tld
        | (_, false) => findTldLoop st s i
      else findTldLoop st s i
    | .error _ => findTldLoop st s i

/-- `Fqdn::find_tld` from `src/fqdn.rs`. -/
def find_tld (st : Store) (s : Str) : Str :=
  let dots := countDots s
  if dots ≥ 1 then findTldLoop st s dots else []

/-! ### URL handling (`Fqdn::has_scheme`, the `url` crate, `get_fqdn`). -/

/-- The scheme list of `Fqdn::has_scheme` (`src/fqdn.rs`). -/
def schemes : List Str :=
  [("http://").toList, ("https://").toList, ("ftp://").toList,
   ("ws://").toList, ("wss://").toList, ("fake://").toList]

/-- `Fqdn::has_scheme` from `src/fqdn.rs`: detect a known scheme, and
optionally remove it (the `replacen(scheme, "", 1)` removes the prefix
occurrence). -/
def has_scheme (s : Str) (remove : Bool) : Str × Bool :=
  match schemes.find? (fun sch => sch.isPrefixOf s) with
  | some sch => if remove then (s.drop sch.length, true) else (s, true)
  | none => (s, false)

/-- Result of a structural URL parse: the components `get_fqdn` reads. -/
structure UrlParts where
  port : Option Nat
  query : Option Str
  path : Str
deriving DecidableEq

/-- Characters the URL standard forbids in an opaque host. -/
def badHostChar (c : Char) : Bool :=
  c = ' ' || c = '@' || c = '[' || c = ']' || c = '\\' ||
  c = '<' || c = '>' || c = '^' || c = '|'

/-- Split a string at the first occurrence of `://`. -/
def splitScheme : Str → Option (Str × Str)
  | [] => none
  | c :: rest =>
    if (":" ++ "//").toList.isPrefixOf (c :: rest) then some ([], (c :: rest).drop 3)
    else
      match splitScheme rest with
      | some (a, b) => some (c :: a, b)
      | none => none

/-- Split an authority at its last colon. -/
def splitLastColon (a : Str) : Str × Option Str :=
  if ':' ∈ a then
    let k := a.reverse.findIdx (fun c => c = ':')
    let i := a.length - 1 - k
    (a.take i, some (a.drop (i + 1)))
  else (a, none)

/-- Numeric value of a digit string. -/
def digitsToNat (ds : Str) : Nat :=
  ds.foldl (fun acc c => acc * 10 + (c.toNat - 48)) 0

/-- Modelled from the `url` crate (an external dependency, not under
`src/`): `Url::parse` restricted to the component reads `get_fqdn`
performs (`port()`, `query()`, `path()`).  The model splits
`scheme://authority[/path][?query]`, treats text after the authority's
last colon as a port that must be numeric and at most 65535, and rejects
hosts containing characters the URL standard forbids in a host. -/
def parseUrl (s : Str) : Option UrlParts :=
  match splitScheme s with
  | none => none
  | some (sch, rest) =>
    if sch = [] then none
    else
      let authEnd := rest.findIdx (fun c => c = '/' || c = '?' || c = '#')
      let auth := rest.take authEnd
      let after := rest.drop authEnd
      let (host, portStr) := splitLastColon auth
      if host.any badHostChar then none
      else
        let port? : Option (Option Nat) :=
          match portStr with
          | none => some none
          | some [] => some none
          | some ds =>
            if ds.all Char.isDigit ∧ digitsToNat ds ≤ 65535 then
              some (some (digitsToNat ds))
            else none
        match port? with
        | none => none
        | some port =>
          let qIdx := after.findIdx (fun c => c = '?')
          let path := after.take qIdx
          let query :=
            if qIdx < after.length then
              some ((after.drop (qIdx + 1)).takeWhile (fun c => c ≠ '#'))
            else none
          some ⟨port, query, path⟩

/-- `Fqdn::get_fqdn` from `src/fqdn.rs`: early size/dot rejection, scheme
handling, structural parse, textual stripping of scheme/port/query/path,
longest-suffix match, and registrable-label extraction. -/
def get_fqdn (st : Store) (srcUrl : Str) : Except TldError Str :=
  if srcUrl = [] then .error .invalidUrl
  else if utf8Len srcUrl < 4 ∨ countDots srcUrl < 1 then .error .invalidUrl
  else
    let hs := has_scheme srcUrl false
    let urlString := if ¬hs.2 then ("fake://").toList ++ srcUrl else hs.1
    match parseUrl urlString with
    | none => .error .invalidUrl
    | some u =>
      let clean0 := (has_scheme urlString true).1
      let clean1 :=
        match u.port with
        | some p => replaceAll clean0 (':' :: natToStr p)
        | none => clean0
      let clean2 :=
        match u.query with
        | some q => replaceAll clean1 ('?' :: q)
        | none => clean1
      let clean3 :=
        if u.path ≠ [] ∧ u.path ≠ ['/'] then replaceAll clean2 u.path else clean2
      let etld := find_tld st clean3
      if etld = [] then .error .invalidTld
      else
        let domainPart := replaceAll clean3 ('.' :: etld)
        if domainPart = [] then .error .invalidUrl
        else if countDots domainPart = 0 then .ok (domainPart ++ '.' :: etld)
        else
          let parts := splitDot domainPart
          .ok (nth parts (parts.length - 1) ++ '.' :: etld)

/-! ### `parse_public_suffix_data` (`src/fqdn.rs`) and the loaders. -/

/-- A raw byte buffer as the parser observes it: either it fails UTF-8
decoding (`String::from_utf8` errors) or it decodes to text. -/
inductive RawData
  | invalidUtf8
  | text (s : Str)
deriving DecidableEq

/-- A byte buffer together with its length, as observed by the loaders
(`metadata.len()` / `bytes.len()`) and the parser (decoded content). -/
structure Buf where
  len : Nat
  decoded : RawData
deriving DecidableEq

/-- The canonical buffer holding UTF-8 text `s`. -/
def mkTextBuf (s : Str) : Buf := ⟨utf8Len s, .text s⟩

/-- Model of Rust `str::lines`: split on newlines, drop a final empty
piece produced by a trailing newline, strip a trailing carriage return
from each line. -/
def rustLines (s : Str) : List Str :=
  if s = [] then []
  else
    let ps := splitChar '\n' s
    let ps := if ps.getLast? = some [] then ps.dropLast else ps
    ps.map (fun l => if l.getLast? = some '\r' then l.dropLast else l)

/-- The ICANN section begin marker. -/
def beginMarker : Str := ("===BEGIN ICANN DOMAINS===").toList

/-- The ICANN section end marker. -/
def endMarker : Str := ("===END ICANN DOMAINS===").toList

/-- The authenticity markers checked in the first 50 lines. -/
def markers : List Str :=
  [("publicsuffix.org").toList,
   ("Mozilla Public Suffix List").toList,
   beginMarker,
   ("This Source Code Form is subject to the terms of the Mozilla Public License").toList]

/-- The marker scan over the first 50 lines. -/
def findMarker (lines : List Str) : Bool :=
  (lines.take 50).any (fun l => markers.any (fun m => containsStr l m))

/-- Error message for an over-long entry, naming the 1-based line number
and the entry length. -/
def tldTooLongMsg (lineNum len : Nat) : Str :=
  ("TLD too long at line ").toList ++ natToStr lineNum ++ (": ").toList ++
    natToStr len ++ (" (max 253 chars)").toList

/-- Error message for an implausibly sparse file. -/
def tooFewMsg (processed : Nat) : Str :=
  ("too few TLD entries processed: ").toList ++ natToStr processed ++
    (" (expected at least 1000)").toList

/-- The line loop of `parse_public_suffix_data` (`src/fqdn.rs`): skip
blanks, toggle the ICANN flag on markers, skip non-ICANN lines when
private suffixes are disallowed, skip comments and wildcard/exception
lines, lowercase the entry, fail on entries over 253 bytes, and add
entries with fewer than five dots to the matching bucket.  Returns the
final store and either the processed count or the aborting error. -/
def parseLoop (ap : Bool) : List Str → Nat → Bool → Nat → Store →
    Store × Except TldError Nat
  | [], _, _, processed, st => (st, .ok processed)
  | line :: rest, n, icann, processed, st =>
    if trim line = [] then parseLoop ap rest (n + 1) icann processed st
    else if containsStr line beginMarker then
      parseLoop ap rest (n + 1) true processed st
    else if containsStr line endMarker then
      parseLoop ap rest (n + 1) false processed st
    else if ¬ap ∧ ¬icann then parseLoop ap rest (n + 1) icann processed st
    else if (("//").toList).isPrefixOf (trim line) then
      parseLoop ap rest (n + 1) icann processed st
    else
      let trimmed := trim line
      if trimmed.head? = some '*' ∨ trimmed.head? = some '!' then
        parseLoop ap rest (n + 1) icann processed st
      else
        let tld := trimmed.map Char.toLower
        if tld = [] then parseLoop ap rest (n + 1) icann processed st
        else if utf8Len tld > 253 then
          (st, .error (.publicSuffixParse (tldTooLongMsg (n + 1) (utf8Len tld))))
        else
          let dots := countDots tld
          if dots < ETLD_GROUP_MAX then
            let (st2, added) := st.addTld tld dots
            parseLoop ap rest (n + 1) icann
              (if added then processed + 1 else processed) st2
          else parseLoop ap rest (n + 1) icann processed st

/-- `Fqdn::parse_public_suffix_data` from `src/fqdn.rs`: UTF-8 check,
empty check, authenticity-marker scan, bucket clearing, the line loop,
the 1000-entry plausibility floor, then `tidy`.  Returns the store the
object holds afterwards together with the result. -/
def parse_public_suffix_data (ap : Bool) (st : Store) (data : RawData) :
    Store × Except TldError Unit :=
  match data with
  | .invalidUtf8 => (st, .error (.publicSuffixParse (("invalid UTF-8 encoding").toList)))
  | .text content =>
    let lines := rustLines content
    if lines = [] then (st, .error (.publicSuffixParse (("empty data").toList)))
    else if ¬findMarker lines then
      (st, .error (.publicSuffixFormat
        (("file does not appear to be the Mozilla Public Suffix List").toList)))
    else
      match parseLoop ap lines 0 false 0 st.clearBuckets with
      | (st2, .error e) => (st2, .error e)
      | (st2, .ok processed) =>
        if processed < 1000 then
          (st2, .error (.publicSuffixParse (tooFewMsg processed)))
        else (st2.tidy, .ok ())

/-- What the file system reports about a path, as observed by
`load_public_suffix_from_file`. -/
structure LocalFile where
  ex : Bool
  isFile : Bool
  size : Nat
  buf : Buf
deriving DecidableEq

/-- `Fqdn::load_public_suffix_from_file` from `src/fqdn.rs`: path and
metadata checks, the 32768-byte floor and 50 MB ceiling on the file size,
the read-length consistency check, then the parser, with parse/format
errors wrapped to name the file. -/
def load_public_suffix_from_file (ap : Bool) (st : Store) (path : Str)
    (f : LocalFile) : Store × Except TldError Unit :=
  if path = [] then
    (st, .error (.publicSuffixDownload (("no file path provided").toList)))
  else if ¬f.ex then
    (st, .error (.publicSuffixDownload (("file does not exist: ").toList ++ path)))
  else if ¬f.isFile then
    (st, .error (.publicSuffixDownload (("path is not a file: ").toList ++ path)))
  else if f.size < MIN_DATA_SIZE then
    (st, .error (.publicSuffixParse
      (("file too small to be a valid public suffix list: ").toList ++
        natToStr f.size ++ (" bytes").toList)))
  else if f.size > 50 * 1024 * 1024 then
    (st, .error (.publicSuffixParse
      (("file too large: ").toList ++ natToStr f.size ++ (" bytes").toList)))
  else if f.buf.len ≠ f.size then
    (st, .error (.publicSuffixParse
      (("file size mismatch").toList)))
  else
    match parse_public_suffix_data ap st f.buf.decoded with
    | (st2, .error (.publicSuffixParse m)) =>
      (st2, .error (.publicSuffixParse
        (("error parsing file ").toList ++ path ++ (": ").toList ++ m)))
    | (st2, .error (.publicSuffixFormat m)) =>
      (st2, .error (.publicSuffixFormat
        (("invalid format in file ").toList ++ path ++ (": ").toList ++ m)))
    | (st2, r) => (st2, r)

/-- An HTTP response as observed by `attempt_download`. -/
structure HttpResponse where
  status : Nat
  contentType : Option Str
  body : Buf
deriving DecidableEq

/-- `Fqdn::attempt_download` from `src/fqdn.rs`, after the request has
produced a response: status check, content-type check, the 10 MB ceiling
and the 32768-byte floor on the body, returning the body bytes. -/
def attempt_download (resp : HttpResponse) : Except TldError Buf :=
  if ¬(200 ≤ resp.status ∧ resp.status < 300) then
    .error (.publicSuffixDownload (("HTTP error").toList))
  else
    match resp.contentType with
    | some ct =>
      if ¬(containsStr ct (("text/").toList) ||
            containsStr ct (("application/octet-stream").toList)) then
        .error (.publicSuffixDownload (("unexpected content type: ").toList ++ ct))
      else if resp.body.len > 10 * 1024 * 1024 then
        .error (.publicSuffixParse (("response too large").toList))
      else if resp.body.len < MIN_DATA_SIZE then
        .error (.publicSuffixParse
          (("response data size too small for public suffix file: ").toList ++
            natToStr resp.body.len ++ (" bytes").toList))
      else .ok resp.body
    | none =>
      if resp.body.len > 10 * 1024 * 1024 then
        .error (.publicSuffixParse (("response too large").toList))
      else if resp.body.len < MIN_DATA_SIZE then
        .error (.publicSuffixParse
          (("response data size too small for public suffix file: ").toList ++
            natToStr resp.body.len ++ (" bytes").toList))
      else .ok resp.body

/-- `validate_origin` from `src/lib.rs`, parameterized by the store the
global manager holds: true iff `get_fqdn` succeeds and the result equals
a member of the allowed list. -/
def validate_origin (st : Store) (origin : Str) (allowed : List Str) : Bool :=
  match get_fqdn st origin with
  | .ok fqdn => allowed.any (fun a => fqdn == a)
  | .error _ => false

/-! ### Ordering facts about `scmp` and correctness of the binary search. -/

/-- Being sorted for the comparator order used by the Rust code. -/
def SortedStr (l : List Str) : Prop := l.Pairwise (fun a b => scmp a b ≠ .gt)

theorem ncmp_self (a : Nat) : ncmp a a = .eq := by simp [ncmp]

theorem ncmp_eq_iff {a b : Nat} : ncmp a b = .eq ↔ a = b := by
  unfold ncmp
  split
  · constructor
    · intro h; cases h
    · intro h; omega
  · split
    · simp [*]
    · constructor
      · intro h; cases h
      · intro h; omega

theorem scmp_self (a : Str) : scmp a a = .eq := by
  induction a with
  | nil => rfl
  | cons c cs ih => simp [scmp, ncmp_self, ih]

theorem scmp_eq_iff {a b : Str} : scmp a b = .eq ↔ a = b := by
  constructor
  · intro h
    induction a generalizing b with
    | nil => cases b with
      | nil => rfl
      | cons d ds => simp [scmp] at h
    | cons c cs ih =>
      cases b with
      | nil => simp [scmp] at h
      | cons d ds =>
        simp only [scmp] at h
        rcases ho : ncmp c.toNat d.toNat with _ | _ | _ <;> rw [ho] at h
        · cases h
        · have hcd : c = d := by
            have : c.toNat = d.toNat := ncmp_eq_iff.mp ho
            have := congrArg Char.ofNat this
            rwa [Char.ofNat_toNat, Char.ofNat_toNat] at this
          rw [hcd, ih h]
        · cases h
  · intro h; rw [h]; exact scmp_self b

theorem ncmp_lt_iff {a b : Nat} : ncmp a b = .lt ↔ a < b := by
  unfold ncmp
  split
  · simp [*]
  · split <;> simp <;> omega

theorem ncmp_gt_iff {a b : Nat} : ncmp a b = .gt ↔ b < a := by
  unfold ncmp
  split
  · simp; omega
  · split
    · simp; omega
    · simp; omega

theorem scmp_gt_iff_lt {a b : Str} : scmp a b = .gt ↔ scmp b a = .lt := by
  induction a generalizing b with
  | nil => cases b <;> simp [scmp]
  | cons c cs ih =>
    cases b with
    | nil => simp [scmp]
    | cons d ds =>
      simp only [scmp]
      rcases ho : ncmp c.toNat d.toNat with _ | _ | _
      · have : ncmp d.toNat c.toNat = .gt := ncmp_gt_iff.mpr (ncmp_lt_iff.mp ho)
        simp [this]
      · have : c.toNat = d.toNat := ncmp_eq_iff.mp ho
        have : ncmp d.toNat c.toNat = .eq := ncmp_eq_iff.mpr this.symm
        simp [this, ih]
      · have : ncmp d.toNat c.toNat = .lt := ncmp_lt_iff.mpr (ncmp_gt_iff.mp ho)
        simp [this]

theorem scmp_lt_trans {a b c : Str} (h1 : scmp a b = .lt) (h2 : scmp b c = .lt) :
    scmp a c = .lt := by
  induction a generalizing b c with
  | nil =>
    cases b with
    | nil => cases h1
    | cons d ds =>
      cases c with
      | nil => cases h2
      | cons e es => simp [scmp]
  | cons x xs ih =>
    cases b with
    | nil => cases h1
    | cons d ds =>
      cases c with
      | nil => cases h2
      | cons e es =>
        simp only [scmp] at h1 h2 ⊢
        rcases h1o : ncmp x.toNat d.toNat with _ | _ | _ <;> rw [h1o] at h1
        · rcases h2o : ncmp d.toNat e.toNat with _ | _ | _ <;> rw [h2o] at h2
          · have : ncmp x.toNat e.toNat = .lt :=
              ncmp_lt_iff.mpr (Nat.lt_trans (ncmp_lt_iff.mp h1o) (ncmp_lt_iff.mp h2o))
            simp [this]
          · have hde := ncmp_eq_iff.mp h2o
            have : ncmp x.toNat e.toNat = .lt := ncmp_lt_iff.mpr (hde ▸ ncmp_lt_iff.mp h1o)
            simp [this]
          · cases h2
        · rcases h2o : ncmp d.toNat e.toNat with _ | _ | _ <;> rw [h2o] at h2
          · have hxd := ncmp_eq_iff.mp h1o
            have : ncmp x.toNat e.toNat = .lt := ncmp_lt_iff.mpr (hxd ▸ ncmp_lt_iff.mp h2o)
            simp [this]
          · have hxd := ncmp_eq_iff.mp h1o
            have hde := ncmp_eq_iff.mp h2o
            have : ncmp x.toNat e.toNat = .eq := ncmp_eq_iff.mpr (hxd.trans hde)
            simp [this]
            exact ih h1 h2
          · cases h2
        · cases h1

theorem scmp_le_lt_trans {a b c : Str} (h1 : scmp a b ≠ .gt) (h2 : scmp b c = .lt) :
    scmp a c = .lt := by
  rcases ho : scmp a b with _ | _ | _
  · exact scmp_lt_trans ho h2
  · rw [scmp_eq_iff.mp ho]; exact h2
  · exact absurd ho h1

theorem scmp_le_le_trans {a b c : Str} (h1 : scmp a b ≠ .gt) (h2 : scmp b c ≠ .gt) :
    scmp a c ≠ .gt := by
  rcases ho : scmp b c with _ | _ | _
  · have := scmp_le_lt_trans h1 ho
    simp [this]
  · rw [← scmp_eq_iff.mp ho]; exact h1
  · exact absurd ho h2

/-- Elements of a sorted list are in weakly increasing comparator order. -/
theorem sortedStr_getD {l : List Str} (hs : SortedStr l) {i j : Nat}
    (hij : i < j) (hj : j < l.length) :
    scmp (nth l i) (nth l j) ≠ .gt := by
  have hi : i < l.length := Nat.lt_trans hij hj
  unfold nth
  rw [List.getD_eq_getElem l [] hi, List.getD_eq_getElem l [] hj]
  exact List.pairwise_iff_getElem.mp hs i j hi hj hij

theorem binSearchAux_sound {l : List Str} {t : Str} :
    ∀ {f lo hi i : Nat}, binSearchAux l t f lo hi = some i →
      lo ≤ i ∧ i < hi ∧ nth l i = t := by
  intro f
  induction f with
  | zero => intro lo hi i h; cases h
  | succ f ih =>
    intro lo hi i h
    rw [binSearchAux] at h
    split at h
    · dsimp only at h
      rcases heq : scmp (nth l (lo + (hi - lo) / 2)) t with _ | _ | _ <;>
        rw [heq] at h
      · obtain ⟨h1, h2, h3⟩ := ih h
        refine ⟨by omega, h2, h3⟩
      · cases h
        exact ⟨by omega, by omega, scmp_eq_iff.mp heq⟩
      · obtain ⟨h1, h2, h3⟩ := ih h
        refine ⟨h1, by omega, h3⟩
    · cases h

theorem binSearchAux_complete {l : List Str} {t : Str} (hs : SortedStr l) :
    ∀ f lo hi, hi ≤ l.length → hi - lo ≤ f →
      (∃ j, lo ≤ j ∧ j < hi ∧ nth l j = t) →
      (binSearchAux l t f lo hi).isSome := by
  intro f
  induction f with
  | zero =>
    intro lo hi hhi hfuel ⟨j, hj1, hj2, hj3⟩
    omega
  | succ f ih =>
    intro lo hi hhi hfuel ⟨j, hj1, hj2, hj3⟩
    rw [binSearchAux]
    rw [if_pos (by omega)]
    dsimp only
    set mid := lo + (hi - lo) / 2 with hmid
    rcases heq : scmp (nth l mid) t with _ | _ | _ <;> dsimp only
    · apply ih (mid + 1) hi hhi (by omega)
      refine ⟨j, ?_, hj2, hj3⟩
      by_contra hcon
      rcases Nat.lt_or_ge j mid with hlt2 | hge2
      · have hmidlen : mid < l.length := by omega
        have hle := sortedStr_getD hs hlt2 hmidlen
        have hcontr : scmp (nth l j) t = .lt := scmp_le_lt_trans hle heq
        rw [hj3, scmp_self] at hcontr
        cases hcontr
      · have hjm : j = mid := by omega
        rw [hjm] at hj3
        rw [hj3, scmp_self] at heq
        cases heq
    · simp
    · apply ih lo mid (by omega) (by omega)
      refine ⟨j, hj1, ?_, hj3⟩
      by_contra hcon
      rcases Nat.lt_or_ge mid j with hlt2 | hge2
      · have hjlen : j < l.length := by omega
        have hle := sortedStr_getD hs hlt2 hjlen
        rw [hj3] at hle
        exact hle heq
      · have hjm : j = mid := by omega
        rw [hjm] at hj3
        rw [hj3, scmp_self] at heq
        cases heq

/-! ### Corollaries about `Etld.search`. -/

/-- A found search result is the target itself, and the target is in the
list (no sortedness needed: the probe returned an equal element). -/
theorem search_found {l : List Str} {t s : Str}
    (h : Etld.search l t = (s, true)) : s = t ∧ t ∈ l := by
  unfold Etld.search at h
  split at h
  · cases h
  · rcases hb : binSearch l t with _ | i <;> rw [hb] at h
    · cases h
    · obtain ⟨_, hi, hnth⟩ := binSearchAux_sound hb
      have hlen : i < l.length := hi
      cases h
      refine ⟨hnth, ?_⟩
      rw [← hnth]
      unfold nth
      rw [List.getD_eq_getElem l [] hlen]
      exact List.getElem_mem hlen

/-- On a sorted list, searching for a member finds it. -/
theorem search_complete {l : List Str} {t : Str}
    (hs : SortedStr l) (hm : t ∈ l) : Etld.search l t = (t, true) := by
  obtain ⟨n, hn, hget⟩ := List.mem_iff_getElem.mp hm
  have hwit : nth l n = t := by
    unfold nth
    rw [List.getD_eq_getElem l [] hn]
    exact hget
  have hsome := binSearchAux_complete hs l.length 0 l.length (Nat.le_refl _)
    (by omega) ⟨n, Nat.zero_le n, hn, hwit⟩
  unfold Etld.search
  rw [if_neg (by simp [List.isEmpty_iff]; intro hnil; rw [hnil] at hm; cases hm)]
  rcases hb : binSearch l t with _ | i
  · rw [binSearch] at hb
    rw [hb] at hsome
    cases hsome
  · obtain ⟨_, _, hnth⟩ := binSearchAux_sound hb
    show (nth l i, true) = (t, true)
    rw [hnth]

/-! ### Behaviour of `get_fqdn` on plain host strings. -/

/-- Characters of a plain host: letters, digits, dots, hyphens. -/
def simpleChar (c : Char) : Bool := c.isAlphanum || c = '.' || c = '-'

/-- A plain bare-host input: nonempty and made of `simpleChar`s only.
On such inputs the structural URL parse succeeds with no port, no query
and an empty path, so `get_fqdn` operates on the input unchanged. -/
def SimpleHost (h : Str) : Prop := h ≠ [] ∧ ∀ c ∈ h, simpleChar c = true

theorem simpleChar_mem_ne {h : Str} (hall : ∀ c ∈ h, simpleChar c = true)
    {x : Char} (hx : simpleChar x = false) : x ∉ h := by
  intro hmem
  rw [hall x hmem] at hx
  cases hx

theorem has_scheme_plain {h : Str} (hall : ∀ c ∈ h, simpleChar c = true) :
    has_scheme h false = (h, false) := by
  unfold has_scheme
  rw [List.find?_eq_none.mpr]
  intro sch hsch
  have hcolon : ':' ∈ sch := by
    fin_cases hsch <;> decide
  rw [Bool.not_eq_true]
  by_contra hcon
  rw [Bool.not_eq_false] at hcon
  obtain ⟨t, ht⟩ := List.isPrefixOf_iff_prefix.mp hcon
  have : ':' ∈ h := by
    rw [← ht]
    exact List.mem_append_left t hcolon
  exact simpleChar_mem_ne hall (by decide) this

theorem splitScheme_fake (h : Str) :
    splitScheme (("fake://").toList ++ h) = some (("fake").toList, h) := by
  have : ("fake://").toList ++ h =
      'f' :: 'a' :: 'k' :: 'e' :: ':' :: '/' :: '/' :: h := rfl
  rw [this]
  simp [splitScheme, List.isPrefixOf, List.drop]

theorem has_scheme_fake_remove (h : Str) :
    has_scheme (("fake://").toList ++ h) true = (h, true) := by
  have hexp : ("fake://").toList ++ h =
      'f' :: 'a' :: 'k' :: 'e' :: ':' :: '/' :: '/' :: h := rfl
  unfold has_scheme
  rw [hexp]
  simp [schemes, List.find?, List.isPrefixOf, List.drop]

theorem simpleChar_not_sep {c : Char} (h : simpleChar c = true) :
    ((c = '/' || c = '?' || c = '#' : Bool)) = false := by
  by_contra hcon
  rw [Bool.not_eq_false] at hcon
  simp only [Bool.or_eq_true, decide_eq_true_eq] at hcon
  rcases hcon with (h1 | h1) | h1 <;> subst h1 <;> revert h <;> decide

theorem simpleChar_not_bad {c : Char} (h : simpleChar c = true) :
    badHostChar c = false := by
  unfold badHostChar
  by_contra hcon
  rw [Bool.not_eq_false] at hcon
  simp only [Bool.or_eq_true, decide_eq_true_eq] at hcon
  rcases hcon with ((((((((h1 | h1) | h1) | h1) | h1) | h1) | h1) | h1) | h1) <;>
    subst h1 <;> revert h <;> decide

theorem parseUrl_plain {h : Str} (hs : SimpleHost h) :
    parseUrl (("fake://").toList ++ h) = some ⟨none, none, []⟩ := by
  obtain ⟨hne, hall⟩ := hs
  have hidx : h.findIdx (fun c => c = '/' || c = '?' || c = '#') = h.length := by
    rw [List.findIdx_eq_length]
    intro x hx
    exact simpleChar_not_sep (hall x hx)
  have hcolon : (':' : Char) ∉ h := simpleChar_mem_ne hall (by decide)
  have hsplit : splitLastColon h = (h, none) := by
    unfold splitLastColon
    rw [if_neg hcolon]
  have hbad : h.any badHostChar = false := by
    rw [List.any_eq_false]
    intro x hx
    rw [simpleChar_not_bad (hall x hx)]
    simp
  unfold parseUrl
  rw [splitScheme_fake]
  dsimp only
  rw [if_neg (by decide), hidx, List.take_length, List.drop_length, hsplit]
  dsimp only
  rw [hbad]
  simp [List.findIdx, List.take]

/-- On a plain host that passes the early checks, `get_fqdn` reduces to
the longest-suffix match followed by registrable-label extraction on the
unmodified input. -/
theorem get_fqdn_plain (st : Store) {h : Str} (hs : SimpleHost h)
    (hlen : 4 ≤ utf8Len h) (hdots : 1 ≤ countDots h) :
    get_fqdn st h =
      (if find_tld st h = [] then .error .invalidTld
       else if replaceAll h ('.' :: find_tld st h) = [] then .error .invalidUrl
       else if countDots (replaceAll h ('.' :: find_tld st h)) = 0 then
         .ok (replaceAll h ('.' :: find_tld st h) ++ '.' :: find_tld st h)
       else
         .ok (nth (splitDot (replaceAll h ('.' :: find_tld st h)))
                ((splitDot (replaceAll h ('.' :: find_tld st h))).length - 1) ++
              '.' :: find_tld st h)) := by
  obtain ⟨hne, hall⟩ := hs
  unfold get_fqdn
  rw [if_neg hne, if_neg (by omega)]
  rw [has_scheme_plain hall]
  dsimp only
  rw [if_pos (show ¬false = true by decide)]
  rw [parseUrl_plain ⟨hne, hall⟩]
  dsimp only
  rw [has_scheme_fake_remove]
  dsimp only
  rw [if_neg (show ¬(([] : Str) ≠ [] ∧ ([] : Str) ≠ ['/']) by simp)]

/-- Step lemma for `findTldLoop`: a successful bucket search at level
`i + 1` returns the stored suffix. -/
theorem findTldLoop_found {st : Store} {s g tld : Str} {i : Nat}
    (hg : guess s (i + 1) = .ok g) (hle : i + 1 ≤ ETLD_GROUP_MAX)
    (hse : Etld.search (st.bucket i) g = (tld, true)) :
    findTldLoop st s (i + 1) = tld := by
  unfold findTldLoop
  rw [hg]
  dsimp only
  rw [if_pos hle, hse]

/-- Step lemma for `findTldLoop`: a failed bucket search at level `i + 1`
falls through to level `i`. -/
theorem findTldLoop_notfound {st : Store} {s g x : Str} {i : Nat}
    (hg : guess s (i + 1) = .ok g) (hle : i + 1 ≤ ETLD_GROUP_MAX)
    (hse : Etld.search (st.bucket i) g = (x, false)) :
    findTldLoop st s (i + 1) = findTldLoop st s i := by
  conv_lhs => unfold findTldLoop
  rw [hg]
  dsimp only
  rw [if_pos hle, hse]

/-- C1: for every store whose sorted 0-dot bucket contains `uk` and whose
sorted 1-dot bucket contains `co.uk`, `get_fqdn "example.co.uk"` returns
`Ok "example.co.uk"`: the most label-specific loaded suffix wins. -/
theorem claim_C1 (st : Store)
    (h0s : SortedStr st.b0) (h0m : ("uk").toList ∈ st.b0)
    (h1s : SortedStr st.b1) (h1m : ("co.uk").toList ∈ st.b1) :
    get_fqdn st (("example.co.uk").toList) = .ok (("example.co.uk").toList) := by
  rw [get_fqdn_plain st (by constructor <;> decide) (by decide) (by decide)]
  have hb1 : st.bucket 1 = st.b1 := rfl
  have hf : find_tld st (("example.co.uk").toList) = ("co.uk").toList := by
    unfold find_tld
    have hd : countDots (("example.co.uk").toList) = 2 := by decide
    rw [hd, if_pos (by omega)]
    exact findTldLoop_found (i := 1) (by decide) (by decide)
      (hb1 ▸ search_complete h1s h1m)
  rw [hf]
  rw [if_neg (by decide)]
  have hrep : replaceAll (("example.co.uk").toList) ('.' :: ("co.uk").toList) =
      ("example").toList := by decide
  rw [hrep]
  rw [if_neg (by decide), if_pos (by decide)]
  decide

/-- Witness for C1 at a concrete two-bucket store. -/
theorem claim_C1_witness :
    get_fqdn ⟨[("uk").toList], [("co.uk").toList], [], [], [], 2⟩
        (("example.co.uk").toList) = .ok (("example.co.uk").toList) :=
  claim_C1 ⟨[("uk").toList], [("co.uk").toList], [], [], [], 2⟩
    (by unfold SortedStr; decide) (by decide)
    (by unfold SortedStr; decide) (by decide)

/-- C7 counterexample: `"¢.a"` has three characters (under four) and one
dot, yet with a store holding the suffix `a` it resolves successfully:
the length gate counts UTF-8 bytes (`str::len`), and `"¢.a"` is four
bytes long. -/
theorem claim_C7_counterexample :
    (("¢.a").toList).length = 3 ∧ countDots (("¢.a").toList) = 1 ∧
    get_fqdn ⟨[("a").toList], [], [], [], [], 1⟩ (("¢.a").toList) =
      .ok (("¢.a").toList) := by
  refine ⟨by decide, by decide, ?_⟩
  decide

/-- C7 (amended): an input that is empty, shorter than four UTF-8 bytes,
or without a dot is rejected with `InvalidUrl` by every store. -/
theorem claim_C7 (st : Store) (s : Str)
    (h : s = [] ∨ utf8Len s < 4 ∨ countDots s = 0) :
    get_fqdn st s = .error .invalidUrl := by
  unfold get_fqdn
  by_cases hnil : s = []
  · rw [if_pos hnil]
  · rw [if_neg hnil]
    rw [if_pos (by rcases h with h | h | h
                   · exact absurd h hnil
                   · exact Or.inl h
                   · exact Or.inr (by omega))]

/-- Witness for C7 at the three-byte dotless input `abc`. -/
theorem claim_C7_witness : get_fqdn emptyStore (("abc").toList) = .error .invalidUrl :=
  claim_C7 emptyStore (("abc").toList) (by right; left; decide)

/-- C2 counterexample: with only `com` loaded, `"a.comx.com"` resolves to
`"ax.com"`, not `"comx.com"`: suffix removal is a replace-all of `".com"`
over the whole host, not removal of the trailing suffix. -/
theorem claim_C2_counterexample :
    get_fqdn ⟨[("com").toList], [], [], [], [], 1⟩ (("a.comx.com").toList) =
      .ok (("ax.com").toList) ∧
    get_fqdn ⟨[("com").toList], [], [], [], [], 1⟩ (("a.comx.com").toList) ≠
      .ok (("comx.com").toList) := by
  constructor <;> decide

/-- C2 (amended): on a plain bare host whose longest-suffix match is
`e`, `get_fqdn` removes every occurrence of `"." ++ e` from the host
(Rust replace-all); an empty remainder yields `InvalidUrl`, a dotless
remainder yields `remainder.e`, and otherwise the remainder's last label
is joined with `e`. -/
theorem claim_C2 (st : Store) (h : Str) (hs : SimpleHost h)
    (hlen : 4 ≤ utf8Len h) (hdots : 1 ≤ countDots h)
    (e : Str) (hf : find_tld st h = e) (hne : e ≠ []) :
    get_fqdn st h =
      (if replaceAll h ('.' :: e) = [] then .error .invalidUrl
       else if countDots (replaceAll h ('.' :: e)) = 0 then
         .ok (replaceAll h ('.' :: e) ++ '.' :: e)
       else
         .ok (nth (splitDot (replaceAll h ('.' :: e)))
                ((splitDot (replaceAll h ('.' :: e))).length - 1) ++ '.' :: e)) := by
  rw [get_fqdn_plain st hs hlen hdots, hf, if_neg hne]

/-- Witness for C2: `mail.accounts.google.com` with `com` loaded yields
`google.com`. -/
theorem claim_C2_witness :
    get_fqdn ⟨[("com").toList], [], [], [], [], 1⟩
      (("mail.accounts.google.com").toList) = .ok (("google.com").toList) := by
  rw [claim_C2 ⟨[("com").toList], [], [], [], [], 1⟩
    (("mail.accounts.google.com").toList) (by constructor <;> decide)
    (by decide) (by decide) (("com").toList) (by decide) (by decide)]
  decide

/-- C9: `validate_origin` returns true exactly when `get_fqdn` succeeds
with a member of the allowed list; in particular it returns false on
every resolution error. -/
theorem claim_C9 (st : Store) (origin : Str) (allowed : List Str) :
    validate_origin st origin allowed = true ↔
      ∃ f, get_fqdn st origin = .ok f ∧ f ∈ allowed := by
  unfold validate_origin
  rcases hg : get_fqdn st origin with e | f
  · simp
  · simp [List.any_eq_true, beq_iff_eq]

/-- Spec-side longest-match loop over an explicit descending index list
(spec §4.4 Step 5): for each `i`, extract the last `i` labels (subject to
the same label-count availability check, which the spec defers to), and
search the bucket for dot count `i - 1` when `i` is at most `bound`;
return the first hit, or the empty string. -/
def findTldSpecList (bound : Nat) (st : Store) (s : Str) : List Nat → Str
  | [] => []
  | i :: rest =>
    match guess s i with
    | .ok g =>
      if i ≤ bound then
        match Etld.search (st.bucket (i - 1)) g with
        | (tld, true) => tld
        | (_, false) => findTldSpecList bound st s rest
      else findTldSpecList bound st s rest
    | .error _ => findTldSpecList bound st s rest

/-- The spec's longest-suffix-match resolver (spec §4.4 Step 5), with the
bucket bound as a parameter: the claim states the bound `4`, the code
uses `ETLD_GROUP_MAX = 5`. -/
def findTldSpec (bound : Nat) (st : Store) (s : Str) : Str :=
  let d := countDots s
  if d ≥ 1 then findTldSpecList bound st s ((List.range d).reverse.map (· + 1))
  else []

theorem findTldSpecList_eq_loop (st : Store) (s : Str) :
    ∀ d, findTldSpecList 5 st s ((List.range d).reverse.map (· + 1)) =
      findTldLoop st s d := by
  intro d
  induction d with
  | zero => rfl
  | succ d ih =>
    rw [List.range_succ, List.reverse_append]
    simp only [List.reverse_cons, List.reverse_nil, List.nil_append,
      List.cons_append, List.map_cons]
    rw [findTldSpecList]
    conv_rhs => unfold findTldLoop
    have hd : d + 1 - 1 = d := by omega
    rw [hd]
    rcases hg : guess s (d + 1) with e | g
    · exact ih
    · dsimp only
      simp only [ETLD_GROUP_MAX]
      by_cases hle : d + 1 ≤ 5
      · rw [if_pos hle, if_pos hle]
        rcases hse : Etld.search (st.bucket d) g with ⟨tld, found⟩
        cases found
        · exact ih
        · rfl
      · rw [if_neg hle, if_neg hle]
        exact ih

/-- C3 counterexample: with a suffix of five labels (four dots) loaded in
the fifth bucket, the host `x.a.b.c.d.e` is resolved through a search at
`i = 5`: the code's bucket-search guard is `i ≤ 5`, not `i ≤ 4`, so the
claim's loop (which would perform no search at `i = 5` and fail with
`InvalidTld`) disagrees with the code. -/
theorem claim_C3_counterexample :
    find_tld ⟨[], [], [], [], [("a.b.c.d.e").toList], 1⟩ (("x.a.b.c.d.e").toList) =
      ("a.b.c.d.e").toList ∧
    findTldSpec 4 ⟨[], [], [], [], [("a.b.c.d.e").toList], 1⟩
      (("x.a.b.c.d.e").toList) = [] ∧
    get_fqdn ⟨[], [], [], [], [("a.b.c.d.e").toList], 1⟩ (("x.a.b.c.d.e").toList) =
      .ok (("x.a.b.c.d.e").toList) := by
  refine ⟨by decide, by decide, by decide⟩

/-- C3 (amended): the candidate of the last `i` labels is searched in the
bucket for dot count `i - 1` exactly when `i ≤ 5` (`ETLD_GROUP_MAX`), and
when no level matches (`find_tld` returns the empty string) a plain-host
resolution fails with `InvalidTld`. -/
theorem claim_C3 :
    (∀ (st : Store) (s : Str), find_tld st s = findTldSpec 5 st s) ∧
    (∀ (st : Store) (h : Str), SimpleHost h → 4 ≤ utf8Len h →
      1 ≤ countDots h → find_tld st h = [] →
      get_fqdn st h = .error .invalidTld) := by
  constructor
  · intro st s
    unfold find_tld findTldSpec
    by_cases hd : countDots s ≥ 1
    · rw [if_pos hd, if_pos hd, findTldSpecList_eq_loop]
    · rw [if_neg hd, if_neg hd]
  · intro st h hs hlen hdots hf
    rw [get_fqdn_plain st hs hlen hdots, hf, if_pos rfl]

/-- Witness for C3 on the empty store and host `ab.cd`. -/
theorem claim_C3_witness :
    find_tld emptyStore (("ab.cd").toList) = findTldSpec 5 emptyStore (("ab.cd").toList) ∧
    get_fqdn emptyStore (("ab.cd").toList) = .error .invalidTld :=
  ⟨claim_C3.1 emptyStore (("ab.cd").toList),
   claim_C3.2 emptyStore (("ab.cd").toList) (by constructor <;> decide)
     (by decide) (by decide) (by decide)⟩

/-! ### Concrete suffix-list data and facts about line splitting. -/

/-- The lowercase ASCII alphabet used to generate entries. -/
def alpha : List Char := ("abcdefghijklmnopqrstuvwxyz").toList

/-- The `i`-th generated three-letter entry (base-26 digits of `i`). -/
def entStr (i : Nat) : Str :=
  [alpha.getD (i / 676) ' ', alpha.getD (i / 26 % 26) ' ', alpha.getD (i % 26) ' ']

/-- One thousand distinct three-letter entries. -/
def entries1000 : List Str := (List.range 1000).map entStr

/-- Join lines with newline separators (no trailing newline). -/
def joinLines : List Str → Str
  | [] => []
  | [l] => l
  | l :: ls => l ++ '\n' :: joinLines ls

theorem joinLines_cons {l : Str} {ls : List Str} (h : ls ≠ []) :
    joinLines (l :: ls) = l ++ '\n' :: joinLines ls := by
  cases ls with
  | nil => exact absurd rfl h
  | cons m ms => rfl

/-- A minimal well-formed suffix-list text: the ICANN begin marker
followed by one thousand distinct entries.  It is 4025 bytes long,
far below the 32768-byte floor the loaders enforce. -/
def successData : Str := joinLines (beginMarker :: entries1000)

/-- A comment line of more than 253 characters. -/
def longComment : Str := ("// ").toList ++ List.replicate 300 'a'

/-- The same well-formed text with an over-long comment line inserted. -/
def c6Data : Str := joinLines (beginMarker :: longComment :: entries1000)

theorem splitChar_not_mem {c : Char} {l : Str} (h : c ∉ l) : splitChar c l = [l] := by
  induction l with
  | nil => rfl
  | cons d rest ih =>
    have hd : d ≠ c := fun hdc => h (hdc ▸ List.mem_cons_self d rest)
    rw [splitChar, if_neg (fun hcd => hd hcd)]
    rw [ih (fun hc => h (List.mem_cons_of_mem d hc))]

theorem splitChar_append {c : Char} {l₁ l₂ : Str} (h : c ∉ l₁) :
    splitChar c (l₁ ++ c :: l₂) = l₁ :: splitChar c l₂ := by
  induction l₁ with
  | nil =>
    simp only [List.nil_append]
    rw [splitChar, if_pos rfl]
  | cons d rest ih =>
    have hd : d ≠ c := fun hdc => h (hdc ▸ List.mem_cons_self d rest)
    simp only [List.cons_append]
    rw [splitChar, if_neg (fun hcd => hd hcd)]
    rw [ih (fun hc => h (List.mem_cons_of_mem d hc))]

theorem splitChar_joinLines {ls : List Str} (hne : ls ≠ [])
    (h : ∀ l ∈ ls, ('\n' : Char) ∉ l) :
    splitChar '\n' (joinLines ls) = ls := by
  induction ls with
  | nil => exact absurd rfl hne
  | cons l rest ih =>
    cases rest with
    | nil =>
      show splitChar '\n' l = [l]
      exact splitChar_not_mem (h l (List.mem_cons_self l []))
    | cons m ms =>
      rw [show joinLines (l :: m :: ms) = l ++ '\n' :: joinLines (m :: ms) from rfl]
      rw [splitChar_append (h l (List.mem_cons_self l (m :: ms)))]
      rw [ih (by intro hc; cases hc) (fun x hx => h x (List.mem_cons_of_mem l hx))]

theorem joinLines_ne_nil {ls : List Str} (hne : ls ≠ [])
    (hnonempty : ∀ l ∈ ls, l ≠ []) : joinLines ls ≠ [] := by
  cases ls with
  | nil => exact absurd rfl hne
  | cons l rest =>
    cases rest with
    | nil => exact hnonempty l (List.mem_cons_self l [])
    | cons m ms =>
      rw [show joinLines (l :: m :: ms) = l ++ '\n' :: joinLines (m :: ms) from rfl]
      intro hcon
      rcases List.append_eq_nil.mp hcon with ⟨_, h2⟩
      cases h2

theorem rustLines_joinLines {ls : List Str} (hne : ls ≠ [])
    (hnl : ∀ l ∈ ls, ('\n' : Char) ∉ l) (hcr : ∀ l ∈ ls, ('\r' : Char) ∉ l)
    (hnonempty : ∀ l ∈ ls, l ≠ []) : rustLines (joinLines ls) = ls := by
  unfold rustLines
  rw [if_neg (joinLines_ne_nil hne hnonempty)]
  rw [splitChar_joinLines hne hnl]
  dsimp only
  rw [if_neg (by
    intro hlast
    obtain ⟨ys, hys⟩ := List.getLast?_eq_some_iff.mp hlast
    have : ([] : Str) ∈ ls := by
      rw [hys]
      exact List.mem_append_right ys (List.mem_cons_self [] [])
    exact hnonempty [] this rfl)]
  have hmap : ∀ l ∈ ls,
      (if l.getLast? = some '\r' then l.dropLast else l) = l := by
    intro l hl
    rw [if_neg (by
      intro hlast
      obtain ⟨ys, hys⟩ := List.getLast?_eq_some_iff.mp hlast
      exact hcr l hl (by rw [hys]; exact List.mem_append_right ys (List.mem_cons_self _ [])))]
  rw [List.map_congr_left hmap]
  simp

/-- The per-line facts that make the parser treat a line as a fresh,
plain ICANN entry. -/
structure GoodEntry (e : Str) : Prop where
  htrim : trim e = e
  hne : e ≠ []
  hbm : containsStr e beginMarker = false
  hem : containsStr e endMarker = false
  hcm : (("//").toList).isPrefixOf e = false
  hw1 : e.head? ≠ some '*'
  hw2 : e.head? ≠ some '!'
  hlow : e.map Char.toLower = e
  hlen : utf8Len e ≤ 253
  hdots : countDots e = 0
  hnl : ('\n' : Char) ∉ e
  hcr : ('\r' : Char) ∉ e

theorem containsStr_short {s pat : Str} (h : s.length < pat.length) :
    containsStr s pat = false := by
  induction s with
  | nil =>
    cases pat with
    | nil => cases h
    | cons p ps => rfl
  | cons c rest ih =>
    rw [containsStr]
    rw [if_neg (by
      intro hcon
      have := (List.isPrefixOf_iff_prefix.mp hcon).length_le
      omega)]
    exact ih (by simp at h; omega)

theorem entStr_good {i : Nat} (hi : i < 1000) : GoodEntry (entStr i) := by
  have h676 : i / 676 < 26 := by omega
  have h26 : i / 26 % 26 < 26 := by omega
  have hmod : i % 26 < 26 := by omega
  have hmem : ∀ {k : Nat}, k < 26 → alpha.getD k ' ' ∈ alpha := by
    intro k hk
    have hk2 : k < alpha.length := by
      have hl : alpha.length = 26 := by decide
      omega
    rw [List.getD_eq_getElem alpha ' ' hk2]
    exact List.getElem_mem hk2
  have hx := hmem h676
  have hy := hmem h26
  have hz := hmem hmod
  set x := alpha.getD (i / 676) ' '
  set y := alpha.getD (i / 26 % 26) ' '
  set z := alpha.getD (i % 26) ' '
  have hprops : ∀ c ∈ alpha, isWhite c = false ∧ c ≠ '/' ∧ c ≠ '*' ∧ c ≠ '!' ∧
      Char.toLower c = c ∧ c.utf8Size = 1 ∧ c ≠ '.' ∧ c ≠ '\n' ∧ c ≠ '\r' := by decide
  obtain ⟨hxw, hx1, hx2, hx3, hx4, hx5, hx6, hx7, hx8⟩ := hprops x hx
  obtain ⟨hyw, hy1, hy2, hy3, hy4, hy5, hy6, hy7, hy8⟩ := hprops y hy
  obtain ⟨hzw, hz1, hz2, hz3, hz4, hz5, hz6, hz7, hz8⟩ := hprops z hz
  have hlb : beginMarker.length = 25 := by decide
  have hle : endMarker.length = 23 := by decide
  refine ⟨?_, ?_, ?_, ?_, ?_, ?_, ?_, ?_, ?_, ?_, ?_, ?_⟩
  · show trim [x, y, z] = [x, y, z]
    unfold trim
    simp [List.dropWhile, hxw, hzw]
  · intro hcon; cases hcon
  · show containsStr [x, y, z] beginMarker = false
    exact containsStr_short (by simp [hlb])
  · show containsStr [x, y, z] endMarker = false
    exact containsStr_short (by simp [hle])
  · show List.isPrefixOf ['/', '/'] [x, y, z] = false
    simp [List.isPrefixOf, Ne.symm hx1]
  · show List.head? [x, y, z] ≠ some '*'
    simp [hx2, Ne.symm hx2]
  · show List.head? [x, y, z] ≠ some '!'
    simp [hx3, Ne.symm hx3]
  · show [Char.toLower x, Char.toLower y, Char.toLower z] = [x, y, z]
    rw [hx4, hy4, hz4]
  · show utf8Len [x, y, z] ≤ 253
    unfold utf8Len
    simp [hx5, hy5, hz5]
  · show countDots [x, y, z] = 0
    unfold countDots
    rw [List.count_eq_zero]
    simp [Ne.symm hx6, Ne.symm hy6, Ne.symm hz6]
  · show ('\n' : Char) ∉ [x, y, z]
    simp [Ne.symm hx7, Ne.symm hy7, Ne.symm hz7]
  · show ('\r' : Char) ∉ [x, y, z]
    simp [Ne.symm hx8, Ne.symm hy8, Ne.symm hz8]

theorem entries1000_good : ∀ e ∈ entries1000, GoodEntry e := by
  intro e he
  obtain ⟨i, hi, hei⟩ := List.mem_map.mp he
  rw [← hei]
  exact entStr_good (List.mem_range.mp hi)

theorem entStr_inj {i j : Nat} (hi : i < 1000) (hj : j < 1000)
    (h : entStr i = entStr j) : i = j := by
  have halp : alpha.Nodup := by decide
  have hinj : ∀ {a b : Nat}, a < 26 → b < 26 →
      alpha.getD a ' ' = alpha.getD b ' ' → a = b := by
    intro a b ha hb hab
    have hlen26 : alpha.length = 26 := by decide
    have ha2 : a < alpha.length := by omega
    have hb2 : b < alpha.length := by omega
    rw [List.getD_eq_getElem alpha ' ' ha2, List.getD_eq_getElem alpha ' ' hb2] at hab
    have := List.nodup_iff_injective_get.mp halp
      (show alpha.get ⟨a, ha2⟩ = alpha.get ⟨b, hb2⟩ by simpa using hab)
    simpa using congrArg Fin.val this
  unfold entStr at h
  injection h with h1 h
  injection h with h2 h
  injection h with h3 _
  have e1 := hinj (by omega) (by omega) h1
  have e2 := hinj (by omega) (by omega) h2
  have e3 := hinj (by omega) (by omega) h3
  omega

theorem entries1000_nodup : entries1000.Nodup := by
  unfold entries1000
  apply List.Nodup.map_on
  · intro i hi j hj hij
    exact entStr_inj (List.mem_range.mp hi) (List.mem_range.mp hj) hij
  · exact List.nodup_range 1000

/-! ### Stepping the parser loop. -/

/-- The line holding the ICANN begin marker turns the ICANN flag on and
is not stored. -/
theorem parseLoop_begin_step (ap : Bool) (rest : List Str) (n : Nat)
    (icann : Bool) (p : Nat) (st : Store) :
    parseLoop ap (beginMarker :: rest) n icann p st =
      parseLoop ap rest (n + 1) true p st := by
  rw [parseLoop]
  rw [if_neg (by decide), if_pos (by decide)]

set_option maxRecDepth 4000 in
/-- Inside the ICANN section, the over-long comment line is skipped. -/
theorem parseLoop_comment_step (ap : Bool) (rest : List Str) (n : Nat)
    (p : Nat) (st : Store) :
    parseLoop ap (longComment :: rest) n true p st =
      parseLoop ap rest (n + 1) true p st := by
  rw [parseLoop]
  rw [if_neg (by decide), if_neg (by decide), if_neg (by decide),
    if_neg (by simp), if_pos (by decide)]

/-- Inside the ICANN section, a fresh good entry line is appended to
bucket 0 and counted. -/
theorem parseLoop_entry_step {ap : Bool} {e : Str} {rest : List Str}
    {n p : Nat} {st : Store} (he : GoodEntry e) (hmem : e ∉ st.b0) :
    parseLoop ap (e :: rest) n true p st =
      parseLoop ap rest (n + 1) true (p + 1) { st with b0 := st.b0 ++ [e] } := by
  have hc : st.b0.contains e = false := by
    rw [Bool.eq_false_iff]
    intro hcon
    exact hmem (List.elem_iff.mp hcon)
  have hadd : st.addTld e 0 = ({ st with b0 := st.b0 ++ [e] }, true) := by
    unfold Store.addTld Etld.add
    rw [hc]
    rfl
  rw [parseLoop]
  rw [he.htrim]
  rw [if_neg he.hne, he.hbm, he.hem]
  rw [if_neg (by simp), if_neg (by simp), if_neg (by simp)]
  rw [if_neg (by rw [Bool.not_eq_true, he.hcm])]
  rw [if_neg (by
    intro hcon
    rcases hcon with hcon | hcon
    · exact he.hw1 hcon
    · exact he.hw2 hcon)]
  rw [he.hlow]
  rw [if_neg he.hne]
  rw [if_neg (by have := he.hlen; omega)]
  rw [he.hdots]
  rw [if_pos (by decide)]
  rw [hadd]
  rfl

/-- Bulk lemma: a block of fresh, distinct good entries is appended to
bucket 0 in order, adding its length to the processed count. -/
theorem parseLoop_entries {ap : Bool} {es : List Str}
    (hgood : ∀ e ∈ es, GoodEntry e) (hnd : es.Nodup) :
    ∀ n p (st : Store), (∀ e ∈ es, e ∉ st.b0) →
      parseLoop ap es n true p st =
        ({ st with b0 := st.b0 ++ es }, .ok (p + es.length)) := by
  induction es with
  | nil =>
    intro n p st hmem
    show (st, Except.ok p) = ({ st with b0 := st.b0 ++ [] }, .ok (p + 0))
    simp
  | cons e es ih =>
    intro n p st hmem
    rw [parseLoop_entry_step (hgood e (List.mem_cons_self e es))
      (hmem e (List.mem_cons_self e es))]
    rw [ih (fun x hx => hgood x (List.mem_cons_of_mem e hx)) hnd.of_cons
      (n + 1) (p + 1) _ (by
        intro x hx
        simp only [List.mem_append, List.mem_singleton]
        rintro (hb0 | hxe)
        · exact hmem x (List.mem_cons_of_mem e hx) hb0
        · exact (List.nodup_cons.mp hnd).1 (hxe ▸ hx))]
    have h1 : (st.b0 ++ [e]) ++ es = st.b0 ++ e :: es := by simp
    have h2 : p + 1 + es.length = p + (e :: es).length := by simp; omega
    rw [h1, h2]

/-- The authenticity-marker scan succeeds when the first line is the
ICANN begin marker. -/
theorem findMarker_begin (rest : List Str) :
    findMarker (beginMarker :: rest) = true := by
  unfold findMarker
  rw [List.take_succ_cons, List.any_cons]
  have : markers.any (fun m => containsStr beginMarker m) = true := by decide
  rw [this]
  rfl

/-- Parsing the begin marker followed by at least 1000 fresh distinct
good entries succeeds, leaving exactly those entries in bucket 0 of the
tidied store. -/
theorem parse_success {ap : Bool} {st : Store} {es : List Str}
    (hgood : ∀ e ∈ es, GoodEntry e) (hnd : es.Nodup) (hlen : 1000 ≤ es.length) :
    parse_public_suffix_data ap st (.text (joinLines (beginMarker :: es))) =
      (({ st.clearBuckets with b0 := es }).tidy, .ok ()) := by
  have hlines : rustLines (joinLines (beginMarker :: es)) = beginMarker :: es := by
    apply rustLines_joinLines
    · intro hcon; cases hcon
    · intro l hl
      rcases List.mem_cons.mp hl with hb | hl2
      · rw [hb]; decide
      · exact (hgood l hl2).hnl
    · intro l hl
      rcases List.mem_cons.mp hl with hb | hl2
      · rw [hb]; decide
      · exact (hgood l hl2).hcr
    · intro l hl
      rcases List.mem_cons.mp hl with hb | hl2
      · rw [hb]; decide
      · exact (hgood l hl2).hne
  unfold parse_public_suffix_data
  dsimp only
  rw [hlines]
  rw [if_neg (by intro hcon; cases hcon)]
  rw [findMarker_begin]
  rw [if_neg (by simp)]
  rw [parseLoop_begin_step]
  rw [parseLoop_entries hgood hnd (0 + 1) 0 st.clearBuckets
    (by intro x hx; show x ∉ ([] : List Str); simp)]
  dsimp only
  rw [if_neg (by omega)]
  rfl

/-- Entries of the generated list are three bytes long. -/
theorem entries1000_len : ∀ e ∈ entries1000, utf8Len e = 3 := by
  intro e he
  obtain ⟨i, hi, hei⟩ := List.mem_map.mp he
  have hi2 := List.mem_range.mp hi
  have h676 : i / 676 < 26 := by omega
  have h26 : i / 26 % 26 < 26 := by omega
  have hmod : i % 26 < 26 := by omega
  have hmem : ∀ {k : Nat}, k < 26 → alpha.getD k ' ' ∈ alpha := by
    intro k hk
    have hk2 : k < alpha.length := by
      have hl : alpha.length = 26 := by decide
      omega
    rw [List.getD_eq_getElem alpha ' ' hk2]
    exact List.getElem_mem hk2
  have hsize : ∀ c ∈ alpha, c.utf8Size = 1 := by decide
  rw [← hei]
  unfold entStr utf8Len
  rw [List.map_cons, List.map_cons, List.map_cons, List.map_nil]
  rw [hsize _ (hmem h676), hsize _ (hmem h26), hsize _ (hmem hmod)]
  rfl

theorem utf8Len_append (a b : Str) : utf8Len (a ++ b) = utf8Len a + utf8Len b := by
  unfold utf8Len
  rw [List.map_append, List.sum_append]

/-- Byte size of joined lines of at most three bytes each. -/
theorem utf8Len_joinLines_le {es : List Str} (h : ∀ e ∈ es, utf8Len e = 3) :
    utf8Len (joinLines es) ≤ 4 * es.length := by
  induction es with
  | nil => simp [joinLines, utf8Len]
  | cons e es ih =>
    cases es with
    | nil =>
      show utf8Len e ≤ 4 * [e].length
      rw [h e (List.mem_cons_self e [])]
      simp
    | cons m ms =>
      rw [show joinLines (e :: m :: ms) = e ++ '\n' :: joinLines (m :: ms) from rfl]
      rw [utf8Len_append]
      have hrest := ih (fun x hx => h x (List.mem_cons_of_mem e hx))
      have he := h e (List.mem_cons_self e (m :: ms))
      have hcons : utf8Len ('\n' :: joinLines (m :: ms)) =
          1 + utf8Len (joinLines (m :: ms)) := by
        unfold utf8Len
        rw [List.map_cons]
        rfl
      rw [hcons]
      simp only [List.length_cons] at hrest ⊢
      omega

set_option maxRecDepth 4000 in
/-- The generated data stays far below the 32768-byte loader floor. -/
theorem successData_small : utf8Len successData < 32768 := by
  unfold successData
  have hlen : entries1000.length = 1000 := by
    unfold entries1000
    simp
  rw [joinLines_cons (by intro hcon; rw [hcon] at hlen; cases hlen)]
  rw [utf8Len_append]
  have hbm : utf8Len beginMarker = 25 := by decide
  have hcons : utf8Len ('\n' :: joinLines entries1000) =
      1 + utf8Len (joinLines entries1000) := by
    unfold utf8Len
    rw [List.map_cons, List.sum_cons]
    have hnlsize : ('\n' : Char).utf8Size = 1 := by decide
    rw [hnlsize]
  have := utf8Len_joinLines_le entries1000_len
  rw [hlen] at this
  omega

/-- The parser succeeds on the generated 4025-byte data. -/
theorem successParse :
    parse_public_suffix_data false emptyStore (.text successData) =
      (({ emptyStore with b0 := entries1000 }).tidy, .ok ()) := by
  have hlen : entries1000.length = 1000 := by
    unfold entries1000
    simp
  have h := @parse_success false emptyStore entries1000 entries1000_good
    entries1000_nodup (by omega)
  exact h

set_option maxRecDepth 4000 in
/-- The lines of the C6 data. -/
theorem rustLines_c6 :
    rustLines c6Data = beginMarker :: longComment :: entries1000 := by
  apply rustLines_joinLines
  · intro hcon; cases hcon
  · intro l hl
    rcases List.mem_cons.mp hl with hb | hl2
    · rw [hb]; decide
    rcases List.mem_cons.mp hl2 with hc | hl3
    · rw [hc]; decide
    · exact (entries1000_good l hl3).hnl
  · intro l hl
    rcases List.mem_cons.mp hl with hb | hl2
    · rw [hb]; decide
    rcases List.mem_cons.mp hl2 with hc | hl3
    · rw [hc]; decide
    · exact (entries1000_good l hl3).hcr
  · intro l hl
    rcases List.mem_cons.mp hl with hb | hl2
    · rw [hb]; decide
    rcases List.mem_cons.mp hl2 with hc | hl3
    · rw [hc]; decide
    · exact (entries1000_good l hl3).hne

/-- Like `parse_success`, with the long comment line inserted after the
marker: the comment is skipped and the load still succeeds. -/
theorem parse_success_c6 {ap : Bool} {st : Store} {es : List Str}
    (hgood : ∀ e ∈ es, GoodEntry e) (hnd : es.Nodup) (hlen : 1000 ≤ es.length) :
    parse_public_suffix_data ap st
        (.text (joinLines (beginMarker :: longComment :: es))) =
      (({ st.clearBuckets with b0 := es }).tidy, .ok ()) := by
  have hlines : rustLines (joinLines (beginMarker :: longComment :: es)) =
      beginMarker :: longComment :: es := by
    apply rustLines_joinLines
    · intro hcon; cases hcon
    · intro l hl
      rcases List.mem_cons.mp hl with hb | hl2
      · rw [hb]; decide
      rcases List.mem_cons.mp hl2 with hc | hl3
      · rw [hc]; decide
      · exact (hgood l hl3).hnl
    · intro l hl
      rcases List.mem_cons.mp hl with hb | hl2
      · rw [hb]; decide
      rcases List.mem_cons.mp hl2 with hc | hl3
      · rw [hc]; decide
      · exact (hgood l hl3).hcr
    · intro l hl
      rcases List.mem_cons.mp hl with hb | hl2
      · rw [hb]; decide
      rcases List.mem_cons.mp hl2 with hc | hl3
      · rw [hc]; decide
      · exact (hgood l hl3).hne
  unfold parse_public_suffix_data
  dsimp only
  rw [hlines]
  rw [if_neg (by intro hcon; cases hcon)]
  rw [findMarker_begin]
  rw [if_neg (by simp)]
  rw [parseLoop_begin_step, parseLoop_comment_step]
  rw [parseLoop_entries hgood hnd (0 + 1 + 1) 0 st.clearBuckets
    (by intro x hx; show x ∉ ([] : List Str); simp)]
  dsimp only
  rw [if_neg (by omega)]
  rfl

/-- The parser also succeeds on the C6 data, skipping the long comment. -/
theorem c6Parse :
    parse_public_suffix_data false emptyStore (.text c6Data) =
      (({ emptyStore with b0 := entries1000 }).tidy, .ok ()) := by
  have hlen : entries1000.length = 1000 := by
    unfold entries1000
    simp
  have h := @parse_success_c6 false emptyStore entries1000 entries1000_good
    entries1000_nodup (by omega)
  exact h

/-- C5 counterexample: the generated buffer is well under 32768 bytes,
yet handing it directly to the parser succeeds — the parser itself
enforces no size floor, so a small buffer does not "always fail". -/
theorem claim_C5_counterexample :
    (mkTextBuf successData).len < MIN_DATA_SIZE ∧
    (parse_public_suffix_data false emptyStore (mkTextBuf successData).decoded).2 =
      .ok () := by
  constructor
  · simp only [mkTextBuf]
    exact successData_small
  · simp only [mkTextBuf]
    rw [successParse]

/-- C5 (amended): a buffer under 32768 bytes read from an existing
regular file, or received in an otherwise acceptable download, fails with
a `PublicSuffixParse` error; the parser itself applies no size check. -/
theorem claim_C5 :
    (∀ (ap : Bool) (st : Store) (path : Str) (f : LocalFile), path ≠ [] →
      f.ex = true → f.isFile = true → f.size < MIN_DATA_SIZE →
      ∃ m, (load_public_suffix_from_file ap st path f).2 =
        .error (.publicSuffixParse m)) ∧
    (∀ resp : HttpResponse, 200 ≤ resp.status → resp.status < 300 →
      (resp.contentType = none ∨ ∃ ct, resp.contentType = some ct ∧
        (containsStr ct (("text/").toList) ||
          containsStr ct (("application/octet-stream").toList)) = true) →
      resp.body.len < MIN_DATA_SIZE →
      ∃ m, attempt_download resp = .error (.publicSuffixParse m)) := by
  have hmin : MIN_DATA_SIZE = 32768 := rfl
  constructor
  · intro ap st path f hpath hex hfile hsize
    unfold load_public_suffix_from_file
    rw [if_neg hpath, hex, hfile]
    rw [if_neg (show ¬¬(true = true) by simp)]
    rw [if_pos hsize]
    exact ⟨_, rfl⟩
  · intro resp h1 h2 hct hlen
    unfold attempt_download
    rw [if_neg (not_not_intro ⟨h1, h2⟩)]
    rcases hct with hnone | ⟨ct, hsome, hok⟩
    · rw [hnone]
      dsimp only
      rw [if_neg (by omega), if_pos hlen]
      exact ⟨_, rfl⟩
    · rw [hsome]
      dsimp only
      rw [if_neg (by rw [hok]; simp), if_neg (by omega), if_pos hlen]
      exact ⟨_, rfl⟩

/-- Witness for C5 on a 100-byte file and a 100-byte response. -/
theorem claim_C5_witness :
    (∃ m, (load_public_suffix_from_file false emptyStore (("p").toList)
      ⟨true, true, 100, ⟨100, .text [Char.ofNat 120]⟩⟩).2 =
        .error (.publicSuffixParse m)) ∧
    (∃ m, attempt_download ⟨200, none, ⟨100, .text [Char.ofNat 120]⟩⟩ =
      .error (.publicSuffixParse m)) :=
  ⟨claim_C5.1 false emptyStore (("p").toList) ⟨true, true, 100, ⟨100, .text [Char.ofNat 120]⟩⟩
    (by decide) rfl rfl (by decide),
   claim_C5.2 ⟨200, none, ⟨100, .text [Char.ofNat 120]⟩⟩ (by decide) (by decide)
    (Or.inl rfl) (by decide)⟩

set_option maxRecDepth 4000 in
/-- C6 counterexample: the C6 data contains a line of 303 characters,
yet the whole load succeeds — the long line is a comment, which is
skipped before the length check. -/
theorem claim_C6_counterexample :
    (∃ l ∈ rustLines c6Data, 253 < utf8Len l) ∧
    (parse_public_suffix_data false emptyStore (.text c6Data)).2 = .ok () := by
  constructor
  · refine ⟨longComment, ?_, ?_⟩
    · rw [rustLines_c6]
      exact List.mem_cons_of_mem _ (List.mem_cons_self _ _)
    · show 253 < utf8Len longComment
      decide
  · rw [c6Parse]

/-- C6 (amended): a line that reaches entry processing (non-blank, no
section marker, not filtered as private, not a comment, not a
wildcard/exception) whose lowercased trimmed content exceeds 253 bytes
aborts the whole load with a `PublicSuffixParse` error naming that
line. -/
theorem claim_C6 (ap : Bool) (line : Str) (rest : List Str) (n : Nat)
    (icann : Bool) (p : Nat) (st : Store)
    (h1 : trim line ≠ [])
    (h2 : containsStr line beginMarker = false)
    (h3 : containsStr line endMarker = false)
    (h4 : ap = true ∨ icann = true)
    (h5 : (("//").toList).isPrefixOf (trim line) = false)
    (h6 : (trim line).head? ≠ some '*')
    (h7 : (trim line).head? ≠ some '!')
    (h8 : 253 < utf8Len ((trim line).map Char.toLower)) :
    parseLoop ap (line :: rest) n icann p st =
      (st, .error (.publicSuffixParse
        (tldTooLongMsg (n + 1) (utf8Len ((trim line).map Char.toLower))))) := by
  rw [parseLoop]
  rw [if_neg h1, h2, h3]
  rw [if_neg (by simp), if_neg (by simp)]
  rw [if_neg (by rcases h4 with h | h <;> simp [h])]
  rw [if_neg (by rw [Bool.not_eq_true, h5])]
  rw [if_neg (by
    intro hcon
    rcases hcon with hc | hc
    · exact h6 hc
    · exact h7 hc)]
  rw [if_neg (by
    intro hcon
    rw [hcon] at h8
    revert h8
    decide)]
  rw [if_pos h8]

set_option maxRecDepth 4000 in
/-- Witness for C6 on a single 254-character entry line. -/
theorem claim_C6_witness :
    parseLoop false [List.replicate 254 'a'] 0 true 0 emptyStore =
      (emptyStore, .error (.publicSuffixParse (tldTooLongMsg 1 254))) := by
  have h := claim_C6 false (List.replicate 254 'a') [] 0 true 0 emptyStore
    (by decide) (by decide) (by decide) (Or.inr rfl) (by decide)
    (by decide) (by decide) (by decide)
  have heq : utf8Len ((trim (List.replicate 254 'a')).map Char.toLower) = 254 := by
    decide
  rw [heq] at h
  exact h

/-- A store holding one previously loaded suffix. -/
def c4Store : Store := ⟨[("com").toList], [], [], [], [], 1⟩

set_option maxRecDepth 4000 in
/-- C4 counterexample: a buffer holding only the ICANN begin marker
passes the authenticity check and then fails the 1000-entry floor, but
by then the previously loaded buckets have already been cleared: the
failed load does not leave the store untouched. -/
theorem claim_C4_counterexample :
    (∃ m, (parse_public_suffix_data false c4Store (.text beginMarker)).2 =
      .error (.publicSuffixParse m)) ∧
    (parse_public_suffix_data false c4Store (.text beginMarker)).1.b0 ≠
      c4Store.b0 := by
  constructor
  · exact ⟨tooFewMsg 0, by decide⟩
  · decide

theorem addTld_fst_total (st : Store) (t : Str) (d : Nat) :
    (st.addTld t d).1.total = st.total := by
  unfold Store.addTld
  rcases d with _ | _ | _ | _ | _ | d <;> rfl

theorem parseLoop_fst_total (ap : Bool) :
    ∀ (lines : List Str) (n : Nat) (icann : Bool) (p : Nat) (st : Store),
      (parseLoop ap lines n icann p st).1.total = st.total := by
  intro lines
  induction lines with
  | nil => intro n icann p st; rfl
  | cons line rest ih =>
    intro n icann p st
    rw [parseLoop]
    dsimp only
    split
    · exact ih _ _ _ _
    split
    · exact ih _ _ _ _
    split
    · exact ih _ _ _ _
    split
    · exact ih _ _ _ _
    split
    · exact ih _ _ _ _
    split
    · exact ih _ _ _ _
    split
    · exact ih _ _ _ _
    split
    · rfl
    split
    · rw [ih _ _ _ _]
      exact addTld_fst_total st _ _
    · exact ih _ _ _ _

/-- C4 (amended): a failed load leaves the store untouched only when it
fails before the bucket-clearing step (invalid UTF-8, empty data, or a
missing authenticity marker); any failed load leaves `total()` at its
previous value, but post-marker failures have already cleared and partly
repopulated the buckets. -/
theorem claim_C4 :
    (∀ (ap : Bool) (st : Store) (d : RawData),
      (d = .invalidUtf8 ∨ ∃ c, d = .text c ∧
        (rustLines c = [] ∨ findMarker (rustLines c) = false)) →
      (parse_public_suffix_data ap st d).1 = st) ∧
    (∀ (ap : Bool) (st : Store) (d : RawData) (e : TldError),
      (parse_public_suffix_data ap st d).2 = .error e →
      (parse_public_suffix_data ap st d).1.total = st.total) := by
  constructor
  · intro ap st d hcase
    rcases hcase with hinv | ⟨c, hc, hrest⟩
    · rw [hinv]
      rfl
    · rw [hc]
      unfold parse_public_suffix_data
      dsimp only
      by_cases hl : rustLines c = []
      · rw [if_pos hl]
      · rw [if_neg hl]
        have hmk : findMarker (rustLines c) = false := by
          rcases hrest with h | h
          · exact absurd h hl
          · exact h
        rw [if_pos (by rw [hmk]; simp)]
  · intro ap st d e hp
    rcases d with _ | c
    · rfl
    · unfold parse_public_suffix_data at hp ⊢
      dsimp only at hp ⊢
      by_cases hl : rustLines c = []
      · rw [if_pos hl] at hp ⊢
      · rw [if_neg hl] at hp ⊢
        by_cases hm : findMarker (rustLines c) = true
        · rw [if_neg (by rw [hm]; simp)] at hp ⊢
          rcases hpl : parseLoop ap (rustLines c) 0 false 0 st.clearBuckets
            with ⟨t0, r0⟩
          rw [hpl] at hp
          have htot : t0.total = st.total := by
            have := parseLoop_fst_total ap (rustLines c) 0 false 0 st.clearBuckets
            rw [hpl] at this
            exact this
          cases r0 with
          | error e2 => exact htot
          | ok processed =>
            dsimp only at hp ⊢
            by_cases hproc : processed < 1000
            · rw [if_pos hproc] at hp ⊢
              exact htot
            · rw [if_neg hproc] at hp
              simp at hp
        · rw [if_pos (by rw [Bool.not_eq_true] at hm; rw [hm]; simp)] at hp ⊢

/-- Witness for C4: a marker-less buffer leaves the populated store
untouched, and the marker-only buffer (although it clears the buckets)
leaves the cached total unchanged. -/
theorem claim_C4_witness :
    (parse_public_suffix_data false c4Store (.text (("x").toList))).1 = c4Store ∧
    (parse_public_suffix_data false c4Store (.text beginMarker)).1.total =
      c4Store.total :=
  ⟨claim_C4.1 false c4Store (.text (("x").toList))
    (Or.inr ⟨(("x").toList), rfl, Or.inr (by decide)⟩),
   claim_C4.2 false c4Store (.text beginMarker)
    (.publicSuffixParse (tooFewMsg 0)) (by decide)⟩

/-- Equality of the five bucket lists (ignoring the cached total). -/
def bucketsEq (s1 s2 : Store) : Prop :=
  s1.b0 = s2.b0 ∧ s1.b1 = s2.b1 ∧ s1.b2 = s2.b2 ∧ s1.b3 = s2.b3 ∧ s1.b4 = s2.b4

theorem addTld_cong {s1 s2 : Store} (h : bucketsEq s1 s2) (t : Str) (d : Nat) :
    bucketsEq (s1.addTld t d).1 (s2.addTld t d).1 ∧
      (s1.addTld t d).2 = (s2.addTld t d).2 := by
  obtain ⟨h0, h1c, h2c, h3c, h4c⟩ := h
  rcases d with _ | _ | _ | _ | _ | d
  · unfold Store.addTld Etld.add
    rw [h0]
    by_cases hc : List.contains s2.b0 t = true
    · rw [if_pos hc]
      exact ⟨⟨rfl, h1c, h2c, h3c, h4c⟩, rfl⟩
    · rw [if_neg hc]
      exact ⟨⟨rfl, h1c, h2c, h3c, h4c⟩, rfl⟩
  · unfold Store.addTld Etld.add
    rw [h1c]
    by_cases hc : List.contains s2.b1 t = true
    · rw [if_pos hc]
      exact ⟨⟨h0, rfl, h2c, h3c, h4c⟩, rfl⟩
    · rw [if_neg hc]
      exact ⟨⟨h0, rfl, h2c, h3c, h4c⟩, rfl⟩
  · unfold Store.addTld Etld.add
    rw [h2c]
    by_cases hc : List.contains s2.b2 t = true
    · rw [if_pos hc]
      exact ⟨⟨h0, h1c, rfl, h3c, h4c⟩, rfl⟩
    · rw [if_neg hc]
      exact ⟨⟨h0, h1c, rfl, h3c, h4c⟩, rfl⟩
  · unfold Store.addTld Etld.add
    rw [h3c]
    by_cases hc : List.contains s2.b3 t = true
    · rw [if_pos hc]
      exact ⟨⟨h0, h1c, h2c, rfl, h4c⟩, rfl⟩
    · rw [if_neg hc]
      exact ⟨⟨h0, h1c, h2c, rfl, h4c⟩, rfl⟩
  · unfold Store.addTld Etld.add
    rw [h4c]
    by_cases hc : List.contains s2.b4 t = true
    · rw [if_pos hc]
      exact ⟨⟨h0, h1c, h2c, h3c, rfl⟩, rfl⟩
    · rw [if_neg hc]
      exact ⟨⟨h0, h1c, h2c, h3c, rfl⟩, rfl⟩
  · exact ⟨⟨h0, h1c, h2c, h3c, h4c⟩, rfl⟩

theorem parseLoop_cong (ap : Bool) :
    ∀ (lines : List Str) (n : Nat) (icann : Bool) (p : Nat) {s1 s2 : Store},
      bucketsEq s1 s2 →
      bucketsEq (parseLoop ap lines n icann p s1).1
          (parseLoop ap lines n icann p s2).1 ∧
        (parseLoop ap lines n icann p s1).2 = (parseLoop ap lines n icann p s2).2 := by
  intro lines
  induction lines with
  | nil => intro n icann p s1 s2 h; exact ⟨h, rfl⟩
  | cons line rest ih =>
    intro n icann p s1 s2 h
    rw [parseLoop, parseLoop]
    dsimp only
    by_cases c1 : trim line = []
    · rw [if_pos c1, if_pos c1]; exact ih _ _ _ h
    rw [if_neg c1, if_neg c1]
    by_cases c2 : containsStr line beginMarker = true
    · rw [if_pos c2, if_pos c2]; exact ih _ _ _ h
    rw [if_neg c2, if_neg c2]
    by_cases c3 : containsStr line endMarker = true
    · rw [if_pos c3, if_pos c3]; exact ih _ _ _ h
    rw [if_neg c3, if_neg c3]
    by_cases c4 : ¬ap = true ∧ ¬icann = true
    · rw [if_pos c4, if_pos c4]; exact ih _ _ _ h
    rw [if_neg c4, if_neg c4]
    by_cases c5 : (("//").toList).isPrefixOf (trim line) = true
    · rw [if_pos c5, if_pos c5]; exact ih _ _ _ h
    rw [if_neg c5, if_neg c5]
    by_cases c6 : List.head? (trim line) = some '*' ∨ List.head? (trim line) = some '!'
    · rw [if_pos c6, if_pos c6]; exact ih _ _ _ h
    rw [if_neg c6, if_neg c6]
    by_cases c7 : List.map Char.toLower (trim line) = []
    · rw [if_pos c7, if_pos c7]; exact ih _ _ _ h
    rw [if_neg c7, if_neg c7]
    by_cases c8 : utf8Len (List.map Char.toLower (trim line)) > 253
    · rw [if_pos c8, if_pos c8]; exact ⟨h, rfl⟩
    rw [if_neg c8, if_neg c8]
    by_cases c9 : countDots (List.map Char.toLower (trim line)) < ETLD_GROUP_MAX
    · rw [if_pos c9, if_pos c9]
      obtain ⟨hbe, h2e⟩ := addTld_cong h (List.map Char.toLower (trim line))
        (countDots (List.map Char.toLower (trim line)))
      rw [h2e]
      exact ih _ _ _ hbe
    · rw [if_neg c9, if_neg c9]; exact ih _ _ _ h

theorem tidy_cong {s1 s2 : Store} (h : bucketsEq s1 s2) : s1.tidy = s2.tidy := by
  obtain ⟨h0, h1c, h2c, h3c, h4c⟩ := h
  unfold Store.tidy
  rw [h0, h1c, h2c, h3c, h4c]

/-- C8: a successful load is a function of the data and the options
alone — the buckets are cleared before repopulation, and `tidy`
recomputes the cached total — so loading the same bytes again from the
resulting store reproduces exactly the same store, with equal `total()`
and equal bucket contents. -/
theorem claim_C8 (ap : Bool) (st0 : Store) (d : RawData) (st : Store)
    (hp : parse_public_suffix_data ap st0 d = (st, .ok ())) :
    parse_public_suffix_data ap st d = (st, .ok ()) := by
  rcases d with _ | c
  · have := congrArg Prod.snd hp
    simp [parse_public_suffix_data] at this
  · unfold parse_public_suffix_data at hp ⊢
    dsimp only at hp ⊢
    by_cases hl : rustLines c = []
    · rw [if_pos hl] at hp
      have := congrArg Prod.snd hp
      simp at this
    rw [if_neg hl] at hp ⊢
    by_cases hm : findMarker (rustLines c) = true
    · rw [if_neg (by rw [hm]; simp)] at hp ⊢
      rcases hpl0 : parseLoop ap (rustLines c) 0 false 0 st0.clearBuckets
        with ⟨t0, r0⟩
      rw [hpl0] at hp
      rcases hplS : parseLoop ap (rustLines c) 0 false 0 st.clearBuckets
        with ⟨t1, r1⟩
      have hbe : bucketsEq st0.clearBuckets st.clearBuckets := by
        exact ⟨rfl, rfl, rfl, rfl, rfl⟩
      have hcong := parseLoop_cong ap (rustLines c) 0 false 0 hbe
      rw [hpl0, hplS] at hcong
      obtain ⟨hbET, hr⟩ := hcong
      dsimp only at hbET hr
      cases r0 with
      | error e2 =>
        have := congrArg Prod.snd hp
        simp at this
      | ok processed =>
        dsimp only at hp
        by_cases hproc : processed < 1000
        · rw [if_pos hproc] at hp
          have := congrArg Prod.snd hp
          simp at this
        · rw [if_neg hproc] at hp
          have hst : t0.tidy = st := congrArg Prod.fst hp
          rw [← hr]
          dsimp only
          rw [if_neg hproc, ← tidy_cong hbET, hst]
    · rw [if_pos (by rw [Bool.not_eq_true] at hm; rw [hm]; simp)] at hp
      have := congrArg Prod.snd hp
      simp at this

/-- Witness for C8: reloading the generated data from the store it
produced reproduces that store exactly. -/
theorem claim_C8_witness :
    parse_public_suffix_data false (({ emptyStore with b0 := entries1000 }).tidy)
        (.text successData) =
      (({ emptyStore with b0 := entries1000 }).tidy, .ok ()) :=
  claim_C8 false emptyStore (.text successData) _ successParse

/-! ### Case handling: the parser lowercases, the resolver does not. -/

/-- ASCII uppercase letter test. -/
def upperChar (c : Char) : Bool := decide (65 ≤ c.toNat ∧ c.toNat ≤ 90)

theorem charOfNat_toNat {n : Nat} (h : n < 55296) : (Char.ofNat n).toNat = n := by
  unfold Char.ofNat Char.toNat
  rw [dif_pos (Or.inl (by omega))]
  unfold Char.ofNatAux
  show (UInt32.ofNat' n _).toNat = n
  unfold UInt32.ofNat'
  simp [UInt32.toNat, BitVec.toNat_ofNatLt]

/-- Lowercasing never yields an ASCII uppercase letter. -/
theorem toLower_upperChar (c : Char) : upperChar (Char.toLower c) = false := by
  unfold Char.toLower upperChar
  dsimp only
  by_cases h : c.toNat ≥ 65 ∧ c.toNat ≤ 90
  · rw [if_pos h]
    have hv := charOfNat_toNat (n := c.toNat + 32) (by omega)
    simp only [hv, decide_eq_false_iff_not]
    omega
  · rw [if_neg h]
    simp only [decide_eq_false_iff_not]
    omega

theorem mem_add {l : List Str} {t e : Str} (h : e ∈ (Etld.add l t).1) :
    e ∈ l ∨ e = t := by
  unfold Etld.add at h
  split at h
  · exact Or.inl h
  · rcases List.mem_append.mp h with h2 | h2
    · exact Or.inl h2
    · exact Or.inr (List.mem_singleton.mp h2)

theorem addTld_bucket_sub (st : Store) (t : Str) (d i : Nat) (e : Str)
    (he : e ∈ ((st.addTld t d).1).bucket i) : e ∈ st.bucket i ∨ e = t := by
  rcases d with _ | _ | _ | _ | _ | d <;>
    [skip; skip; skip; skip; skip; exact Or.inl he] <;>
    rcases i with _ | _ | _ | _ | _ | i <;>
    simp only [Store.addTld, Store.bucket] at he ⊢ <;>
    first
      | exact absurd he (List.not_mem_nil e)
      | exact mem_add he
      | exact Or.inl he

theorem tidy_bucket_sub (st : Store) (i : Nat) (e : Str)
    (he : e ∈ (st.tidy).bucket i) : e ∈ st.bucket i := by
  rcases i with _ | _ | _ | _ | _ | i <;>
    simp only [Store.tidy, Store.bucket] at he ⊢ <;>
    first
      | exact absurd he (List.not_mem_nil e)
      | exact List.mem_mergeSort.mp he

/-- No bucket entry contains an ASCII uppercase letter. -/
def NoUpperStore (st : Store) : Prop :=
  ∀ i, ∀ e ∈ st.bucket i, ∀ c ∈ e, upperChar c = false

theorem addTld_noUpper {st : Store} {t : Str} {d : Nat} (h : NoUpperStore st)
    (ht : ∀ c ∈ t, upperChar c = false) : NoUpperStore (st.addTld t d).1 := by
  intro i e he c hc
  rcases addTld_bucket_sub st t d i e he with h2 | h2
  · exact h i e h2 c hc
  · exact ht c (h2 ▸ hc)

theorem parseLoop_noUpper (ap : Bool) :
    ∀ (lines : List Str) (n : Nat) (icann : Bool) (p : Nat) (st : Store),
      NoUpperStore st → NoUpperStore (parseLoop ap lines n icann p st).1 := by
  intro lines
  induction lines with
  | nil => intro n icann p st h; exact h
  | cons line rest ih =>
    intro n icann p st h
    rw [parseLoop]
    dsimp only
    split
    · exact ih _ _ _ _ h
    split
    · exact ih _ _ _ _ h
    split
    · exact ih _ _ _ _ h
    split
    · exact ih _ _ _ _ h
    split
    · exact ih _ _ _ _ h
    split
    · exact ih _ _ _ _ h
    split
    · exact ih _ _ _ _ h
    split
    · exact h
    split
    · apply ih
      apply addTld_noUpper h
      intro c hc
      obtain ⟨c0, hc0, hceq⟩ := List.mem_map.mp hc
      rw [← hceq]
      exact toLower_upperChar c0
    · exact ih _ _ _ _ h

theorem clearBuckets_noUpper (st : Store) : NoUpperStore st.clearBuckets := by
  intro i e he c hc
  rcases i with _ | _ | _ | _ | _ | i <;>
    simp only [Store.clearBuckets, Store.bucket] at he <;>
    exact absurd he (List.not_mem_nil e)

theorem tidy_noUpper {st : Store} (h : NoUpperStore st) : NoUpperStore st.tidy :=
  fun i e he c hc => h i e (tidy_bucket_sub st i e he) c hc

/-- C10: suffix entries are lowercased by the parser (no bucket entry of
a successfully loaded store contains an ASCII uppercase letter), while
`get_fqdn` never lowercases its input — when every candidate suffix of
the query contains an uppercase letter, no bucket search can succeed and
resolution fails with `InvalidTld`; concretely, with lowercase `com`
loaded, `example.COM` fails with `InvalidTld` while `example.com`
resolves. -/
theorem claim_C10 :
    (∀ (ap : Bool) (st st2 : Store) (d : RawData),
      parse_public_suffix_data ap st d = (st2, .ok ()) → NoUpperStore st2) ∧
    (∀ (st : Store) (s : Str), NoUpperStore st →
      (∀ i g, 1 ≤ i → i ≤ countDots s → guess s i = .ok g →
        ∃ c ∈ g, upperChar c = true) →
      find_tld st s = []) ∧
    (get_fqdn ⟨[("com").toList], [], [], [], [], 1⟩ (("example.COM").toList) =
        .error .invalidTld ∧
      get_fqdn ⟨[("com").toList], [], [], [], [], 1⟩ (("example.com").toList) =
        .ok (("example.com").toList)) := by
  refine ⟨?_, ?_, by decide, by decide⟩
  · intro ap st st2 d hp
    rcases d with _ | c
    · have := congrArg Prod.snd hp
      simp [parse_public_suffix_data] at this
    · unfold parse_public_suffix_data at hp
      dsimp only at hp
      by_cases hl : rustLines c = []
      · rw [if_pos hl] at hp
        have := congrArg Prod.snd hp
        simp at this
      rw [if_neg hl] at hp
      by_cases hm : findMarker (rustLines c) = true
      · rw [if_neg (by rw [hm]; simp)] at hp
        rcases hpl : parseLoop ap (rustLines c) 0 false 0 st.clearBuckets
          with ⟨t0, r0⟩
        rw [hpl] at hp
        cases r0 with
        | error e2 =>
          have := congrArg Prod.snd hp
          simp at this
        | ok processed =>
          dsimp only at hp
          by_cases hproc : processed < 1000
          · rw [if_pos hproc] at hp
            have := congrArg Prod.snd hp
            simp at this
          · rw [if_neg hproc] at hp
            have hst : t0.tidy = st2 := congrArg Prod.fst hp
            rw [← hst]
            apply tidy_noUpper
            have := parseLoop_noUpper ap (rustLines c) 0 false 0 st.clearBuckets
              (clearBuckets_noUpper st)
            rw [hpl] at this
            exact this
      · rw [if_pos (by rw [Bool.not_eq_true] at hm; rw [hm]; simp)] at hp
        have := congrArg Prod.snd hp
        simp at this
  · intro st s hstore hcand
    unfold find_tld
    by_cases hd : countDots s ≥ 1
    · rw [if_pos hd]
      have hloop : ∀ d, d ≤ countDots s → findTldLoop st s d = [] := by
        intro d
        induction d with
        | zero => intro; rfl
        | succ d ihd =>
          intro hdle
          rw [findTldLoop]
          rcases hg : guess s (d + 1) with e | g
          · exact ihd (by omega)
          · dsimp only
            by_cases hle : d + 1 ≤ ETLD_GROUP_MAX
            · rw [if_pos hle]
              rcases hse : Etld.search (st.bucket d) g with ⟨tld, found⟩
              cases found
              · dsimp only
                exact ihd (by omega)
              · obtain ⟨_, hmem⟩ := search_found hse
                obtain ⟨c, hcg, hcu⟩ := hcand (d + 1) g (by omega) hdle hg
                have hfalse := hstore d g hmem c hcg
                rw [hcu] at hfalse
                cases hfalse
            · rw [if_neg hle]
              exact ihd (by omega)
      exact hloop _ (Nat.le_refl _)
    · rw [if_neg hd]

/-- Witness for C10: the generated load yields an uppercase-free store,
and with lowercase `com` loaded, every candidate level of `example.COM`
carries an uppercase letter, so `find_tld` returns the empty string. -/
theorem claim_C10_witness :
    NoUpperStore (({ emptyStore with b0 := entries1000 }).tidy) ∧
    find_tld ⟨[("com").toList], [], [], [], [], 1⟩ (("example.COM").toList) = [] := by
  constructor
  · exact claim_C10.1 false emptyStore _ (.text successData) successParse
  · apply claim_C10.2.1
    · intro i e he c hc
      rcases i with _ | _ | _ | _ | _ | i <;> simp only [Store.bucket] at he
      · rw [List.mem_singleton] at he
        subst he
        have hc2 : c = 'c' ∨ c = 'o' ∨ c = 'm' := by simpa using hc
        rcases hc2 with h | h | h <;> subst h <;> decide
      all_goals exact absurd he (List.not_mem_nil e)
    · intro i g h1 h2 hg
      have hd : countDots (("example.COM").toList) = 1 := by decide
      rw [hd] at h2
      have hi1 : i = 1 := by omega
      subst hi1
      have hgv : guess (("example.COM").toList) 1 = .ok (("COM").toList) := by
        decide
      rw [hgv] at hg
      cases hg
      exact ⟨'C', by decide, by decide⟩

end RustTld
